import Mathlib

/-!
# mqtt-prometheus-exporter: topic label extraction, JSON field resolution, message handlers, collector

A shallow embedding of `mqtt/helper.go`, `mqtt/handler.go` and
`prometheus/collector.go`.

* Go strings are modelled as lists of characters.  Every string operation used
  by the source splits or replaces on an ASCII separator ('/', '.', '_', '|').
* The collector's cache is the `go-cache` library; its `New`, `Set`, `Items`
  and `DeleteExpired` are modelled with an explicit clock.  Operations are
  sequential.
* Go `int` indices are modelled as `Int`; the only arithmetic performed on them
  is `-len(s)` and `len(s)+idx` with `-len(s) ≤ idx < 0`, which cannot overflow.
* A Go slice access that would be out of range (a run-time failure) is modelled
  by `none`.
-/

namespace MqttExporter

/-- Go strings. -/
abbrev Str := List Char

/-! ## Standard-library string helpers used by the source -/

/-- Model of `strings.Split(s, sep)` for a one-character separator: the pieces
of `s` between occurrences of `sep`; never empty (the empty string gives one
empty piece). -/
def stringsSplit (sep : Char) : Str → List Str
  | [] => [[]]
  | c :: cs =>
    if c = sep then [] :: stringsSplit sep cs
    else
      match stringsSplit sep cs with
      | [] => [[c]]
      | piece :: pieces => (c :: piece) :: pieces

/-- Model of `strings.SplitN(s, sep, 2)` for a one-character separator: `[s]` when
`sep` does not occur in `s`, otherwise the text before the first `sep` and the
text after it. -/
def stringsSplitN2 (sep : Char) : Str → List Str
  | [] => [[]]
  | c :: cs =>
    if c = sep then [[], cs]
    else
      match stringsSplitN2 sep cs with
      | [k] => [c :: k]
      | k :: rest :: _ => [c :: k, rest]
      | [] => [[c]]

/-- Model of `strings.ReplaceAll(s, old, new)` for one-character `old` and `new`. -/
def stringsReplaceAll (old new : Char) (s : Str) : Str :=
  s.map (fun c => if c = old then new else c)

/-- Go slice indexing `s[i]` with an `int` index: `none` stands for the
run-time failure on an index out of range. -/
def sliceIndex {α : Type} (s : List α) (i : Int) : Option α :=
  if 0 ≤ i then s.get? i.toNat else none

/-! ## `mqtt/helper.go` -/

/-- Embedding of `getTopicPart` (helper.go lines 5-15). -/
def getTopicPart (topic : Str) (idx : Int) : Option Str :=
  let s := stringsSplit '/' topic
  if idx > 0 ∧ idx < (s.length : Int) then sliceIndex s idx
  else if idx < 0 ∧ idx ≥ -(s.length : Int) then sliceIndex s ((s.length : Int) + idx)
  else some []

/-- The topic `"/" + l1 + "/" + l2 + ... + "/" + lk`. -/
def slashTopic (levels : List Str) : Str :=
  (levels.map (fun l => '/' :: l)).flatten

/-- A decoded JSON value, as `encoding/json` produces it when unmarshalling into
`map[string]interface{}`: `nil`, `bool`, `float64`, `string`, `[]interface{}`
or `map[string]interface{}`.  `F` is the type of 64-bit floating-point numbers. -/
inductive JSONValue (F : Type) where
  | null : JSONValue F
  | bool (b : Bool) : JSONValue F
  | num (f : F) : JSONValue F
  | str (s : Str) : JSONValue F
  | arr (xs : List (JSONValue F)) : JSONValue F
  | obj (m : List (Str × JSONValue F)) : JSONValue F

/-- A Go `map[string]interface{}`: the value stored under a key is the first
entry with that key. -/
abbrev JSONMap (F : Type) := List (Str × JSONValue F)

/-- Go map indexing `val, found := jsonMap[key]`. -/
def mapIndex {F : Type} (jsonMap : JSONMap F) (key : Str) : Option (JSONValue F) :=
  match jsonMap with
  | [] => none
  | (k, v) :: rest => if k = key then some v else mapIndex rest key

/-- Recursion of `tryFind` (helper.go lines 35-51), with a bound on the depth of
the recursion; `tryFind` supplies a bound that is never reached. -/
def tryFindFuel {F : Type} : Nat → JSONMap F → Str → Bool → Option (JSONValue F)
  | 0, _, _, _ => none
  | fuel + 1, jsonMap, path, replaceDots =>
    let searchPath := if replaceDots then stringsReplaceAll '.' '_' path else path
    match stringsSplitN2 '.' searchPath with
    | [] => none
    | [pp0] => mapIndex jsonMap pp0
    | pp0 :: pp1 :: _ =>
      match mapIndex jsonMap pp0 with
      | some (JSONValue.obj subJSONMap) => tryFindFuel fuel subJSONMap pp1 replaceDots
      | some _ => none
      | none => none

/-- Embedding of `tryFind` (helper.go lines 35-51): every recursive call is on a
strictly shorter path, so `path.length + 1` levels suffice. -/
def tryFind {F : Type} (jsonMap : JSONMap F) (path : Str) (replaceDots : Bool) :
    Option (JSONValue F) :=
  tryFindFuel (path.length + 1) jsonMap path replaceDots

/-- Embedding of `findInJSON` (helper.go lines 17-33); `none` is the result
`(nil, false)`. -/
def findInJSON {F : Type} (jsonMap : JSONMap F) (path : Str) : Option (JSONValue F) :=
  if path = [] ∨ jsonMap.length = 0 then none
  else
    match tryFind jsonMap path false with
    | some val => some val
    | none =>
      match tryFind jsonMap path true with
      | some val => some val
      | none => none

/-- The walk the specification describes: follow the segments of a path through
nested objects; the last segment is looked up in the object reached. -/
def walk {F : Type} (m : JSONMap F) : List Str → Option (JSONValue F)
  | [] => none
  | [seg] => mapIndex m seg
  | seg :: seg2 :: segs =>
    match mapIndex m seg with
    | some (JSONValue.obj sub) => walk sub (seg2 :: segs)
    | _ => none

/-! ## `mqtt/handler.go` -/

/-- The standard-library functions the handlers call, over the type `F` of
`float64` values. -/
structure GoLib (F : Type) where
  /-- Function `strconv.ParseFloat(s, 64)`; `none` is a non-nil error. -/
  parseFloat : Str → Option F
  /-- Function `fmt.Sprintf("%v", value)` on a decoded JSON value. -/
  sprintV : JSONValue F → Str
  /-- Function `json.Unmarshal(payload, &jsonMap)` into an empty map; `none` is a
  non-nil error. -/
  unmarshal : Str → Option (JSONMap F)

/-- The fields of `config.Metric` that the handlers read or write.
`TopicLabels` is the ordered mapping of label name to topic-segment index. -/
structure Metric where
  PrometheusName : Str
  BaseName : Str
  MqttTopic : Str
  TopicLabels : List (Str × Int)
  JSONField : List Str
  Expiration : Int
  FakeTS : Bool
  deriving DecidableEq, Repr

/-- Modelled from the spec: `config.TopicLabels.KeysInOrder` is not part of the
sources at hand; section 3 describes `labelSpecs` as an ordered mapping whose
order is the label column order, so `TopicLabels` lists the label specs in
that order and the keys are returned as listed. -/
def KeysInOrder (tl : List (Str × Int)) : List Str :=
  tl.map Prod.fst

/-- Go map indexing `h.metric.TopicLabels[tl]` (zero when the key is absent). -/
def topicLabelIndex (tl : List (Str × Int)) (key : Str) : Int :=
  match tl with
  | [] => 0
  | (k, i) :: rest => if k = key then i else topicLabelIndex rest key

/-- An incoming MQTT message: `msg.Topic()` and `msg.Payload()`. -/
structure Message where
  topic : Str
  payload : Str
  deriving DecidableEq, Repr

/-- One call `collector.Observe(metric, topic, v, expiration, labelValues...)`. -/
structure ObserveCall (F : Type) where
  metric : Metric
  topic : Str
  v : F
  expiration : Int
  labelValues : List Str
  deriving DecidableEq, Repr

/-- The mutable part of `messageHandler`: its `metric` field.  The collector is
represented by the list of `Observe` calls made on it. -/
structure messageHandler where
  metric : Metric
  deriving DecidableEq, Repr

/-- The loop `for _, tl := range KeysInOrder() { labelValues = append(...) }`
(handler.go lines 44-46 and 62-64), run on the labels collected so far. -/
def appendTopicLabels (tl : List (Str × Int)) (topic : Str) :
    List Str → List Str → Option (List Str)
  | [], labelValues => some labelValues
  | key :: keys, labelValues =>
    match getTopicPart topic (topicLabelIndex tl key) with
    | none => none
    | some part => appendTopicLabels tl topic keys (labelValues ++ [part])

/-- The label values both handlers build: `[]string{msg.Topic()}` followed by
one topic part per label key. -/
def buildLabelValues (h : messageHandler) (topic : Str) : Option (List Str) :=
  appendTopicLabels h.metric.TopicLabels topic (KeysInOrder h.metric.TopicLabels) [topic]

/-- Embedding of the closure returned by `getMessageHandler` (handler.go lines
34-49): the handler after the message and the `Observe` calls made, or `none`
for a run-time failure. -/
def getMessageHandler {F : Type} (L : GoLib F) (h : messageHandler) (msg : Message) :
    Option (messageHandler × List (ObserveCall F)) :=
  let strValue := msg.payload
  match L.parseFloat strValue with
  | none => some (h, [])
  | some floatValue =>
    match buildLabelValues h msg.topic with
    | none => none
    | some labelValues =>
      some (h, [⟨h.metric, msg.topic, floatValue, h.metric.Expiration, labelValues⟩])

/-- One iteration of the loop over `h.metric.JSONField` (handler.go lines
66-82): the handler and the calls made so far, after the iteration for `field`. -/
def fieldStep {F : Type} (L : GoLib F) (jsonMap : JSONMap F) (topic : Str)
    (labelValues : List Str) (st : messageHandler × List (ObserveCall F)) (field : Str) :
    messageHandler × List (ObserveCall F) :=
  let h := st.1
  match findInJSON jsonMap field with
  | none => st
  | some value =>
    match L.parseFloat (L.sprintV value) with
    | none => st
    | some floatValue =>
      let origName := h.metric.PrometheusName
      let h1 : messageHandler :=
        ⟨{ h.metric with PrometheusName := h.metric.BaseName ++ '_' :: field }⟩
      let call : ObserveCall F :=
        ⟨h1.metric, topic, floatValue, h1.metric.Expiration, labelValues⟩
      let h2 : messageHandler := ⟨{ h1.metric with PrometheusName := origName }⟩
      (h2, st.2 ++ [call])

/-- Embedding of the closure returned by `getJSONMessageHandler` (handler.go
lines 51-84). -/
def getJSONMessageHandler {F : Type} (L : GoLib F) (h : messageHandler) (msg : Message) :
    Option (messageHandler × List (ObserveCall F)) :=
  match L.unmarshal msg.payload with
  | none => some (h, [])
  | some jsonMap =>
    match buildLabelValues h msg.topic with
    | none => none
    | some labelValues =>
      some (h.metric.JSONField.foldl (fieldStep L jsonMap msg.topic labelValues) (h, []))

/-- Embedding of `NewMessageHandler` (handler.go lines 21-32): the handler
state it allocates and the closure it returns. -/
def NewMessageHandler {F : Type} (L : GoLib F) (metric : Metric) :
    messageHandler × (messageHandler → Message → Option (messageHandler × List (ObserveCall F))) :=
  let metric1 := { metric with BaseName := metric.PrometheusName }
  let mh : messageHandler := ⟨metric1⟩
  if metric1.JSONField.length > 0 then (mh, getJSONMessageHandler L)
  else (mh, getMessageHandler L)

/-- The `Observe` calls made when the handler built for `metric` receives `msg`
as its first message; `none` for a run-time failure. -/
def observed {F : Type} (L : GoLib F) (metric : Metric) (msg : Message) :
    Option (List (ObserveCall F)) :=
  let hd := NewMessageHandler L metric
  (hd.2 hd.1 msg).map Prod.snd

/-- What one field of the field list contributes, in the words of the
specification: one observation when the field's path resolves to a leaf that
converts to a float, carrying that float, the message topic and the label
values, under the name the handler derives for the field; nothing otherwise. -/
def fieldObservation {F : Type} (L : GoLib F) (metric : Metric) (jsonMap : JSONMap F)
    (topic : Str) (labelValues : List Str) (field : Str) : Option (ObserveCall F) :=
  match findInJSON jsonMap field with
  | none => none
  | some value =>
    match L.parseFloat (L.sprintV value) with
    | none => none
    | some floatValue =>
      some ⟨{ metric with PrometheusName := metric.BaseName ++ '_' :: field }, topic,
        floatValue, metric.Expiration, labelValues⟩

/-- What an `Observe` call records: exported name, source topic, value,
expiration and label values. -/
def observation {F : Type} (c : ObserveCall F) : Str × Str × F × Int × List Str :=
  (c.metric.PrometheusName, c.topic, c.v, c.expiration, c.labelValues)

/-- The handler `h` with its metric's field list replaced by `fields`. -/
def withFields (h : messageHandler) (fields : List Str) : messageHandler :=
  ⟨{ h.metric with JSONField := fields }⟩

/-! ## `prometheus/collector.go`

Time is explicit: every operation takes the reading `now` of `time.Now()`, in
nanoseconds, and is treated as happening at that instant.  Durations are
nanoseconds.  A Go map is iterated in an unspecified order; the cache lists
its entries in some order, and the statements about `Collect` do not depend on
it. -/

/-- The parts of the Prometheus client and of `config.Metric` that the collector
calls, over the type `D` of descriptors. -/
structure PromLib (D : Type) where
  /-- Method `metric.PrometheusDescription()`. -/
  PrometheusDescription : Metric → D
  /-- Whether `prometheus.NewConstMetric(metric.PrometheusDescription(),
  metric.PrometheusValueType(), v, labelValues...)` returns a nil error. -/
  constMetricOk : Metric → List Str → Bool

/-- The constant metric `prometheus.NewConstMetric` builds: descriptor, value
and label values. -/
structure ConstMetric (F D : Type) where
  desc : D
  v : F
  labelValues : List Str
  deriving DecidableEq, Repr

/-- Embedding of `collectorEntry` (collector.go lines 27-30). -/
structure collectorEntry (F D : Type) where
  m : ConstMetric F D
  ts : Int
  deriving DecidableEq, Repr

/-- An item of `go-cache`: the stored object and the instant (Unix nanoseconds)
after which it is expired; `Expiration = 0` means it never expires. -/
structure Item (F D : Type) where
  Object : collectorEntry F D
  Expiration : Int
  deriving DecidableEq, Repr

/-- The `go-cache` cache: its default expiration and its items, one per key. -/
structure Cache (F D : Type) where
  defaultExpiration : Int
  items : List (Str × Item F D)
  deriving DecidableEq, Repr

/-- Go map assignment `items[k] = x`: the value under `k` is replaced, or the
key is added. -/
def mapSet {α : Type} : List (Str × α) → Str → α → List (Str × α)
  | [], k, x => [(k, x)]
  | (k1, y) :: rest, k, x =>
    if k1 = k then (k, x) :: rest else (k1, y) :: mapSet rest k x

/-- Go map lookup `items[k]`. -/
def mapGet {α : Type} : List (Str × α) → Str → Option α
  | [], _ => none
  | (k1, y) :: rest, k => if k1 = k then some y else mapGet rest k

/-- Model of `gocache.New(defaultExpiration, cleanupInterval)`: an empty cache;
a default expiration of 0 is stored as -1 (no expiration).  The cleanup
interval only sets how often expired items are deleted. -/
def gocacheNew (F D : Type) (defaultExpiration _cleanupInterval : Int) : Cache F D :=
  ⟨if defaultExpiration = 0 then -1 else defaultExpiration, []⟩

/-- Model of `cache.Set(k, x, d)` of `go-cache` at the instant `now`: a duration
of 0 (`DefaultExpiration`) stands for the cache's default; the item expires
`d` after `now` when `d > 0` and never otherwise (`NoExpiration` is -1). -/
def cacheSet {F D : Type} (c : Cache F D) (k : Str) (x : collectorEntry F D) (d : Int)
    (now : Int) : Cache F D :=
  let d1 := if d = 0 then c.defaultExpiration else d
  let e := if d1 > 0 then now + d1 else 0
  { c with items := mapSet c.items k ⟨x, e⟩ }

/-- Whether a `go-cache` item is expired at the instant `now`. -/
def itemExpired {F D : Type} (now : Int) (item : Item F D) : Bool :=
  decide (item.Expiration > 0 ∧ now > item.Expiration)

/-- Model of `cache.Items()` of `go-cache` at the instant `now`: the items that
are not expired. -/
def cacheItems {F D : Type} (c : Cache F D) (now : Int) : List (Str × Item F D) :=
  c.items.filter (fun kv => !itemExpired now kv.2)

/-- Model of `cache.DeleteExpired()` of `go-cache`, which the cache runs in the
background every cleanup interval. -/
def cacheDeleteExpired {F D : Type} (c : Cache F D) (now : Int) : Cache F D :=
  { c with items := c.items.filter (fun kv => !itemExpired now kv.2) }

/-- Embedding of `memoryCachedCollector` (collector.go lines 21-25). -/
structure memoryCachedCollector (F D : Type) where
  cache : Cache F D
  descriptions : List D
  metrics : List Metric

/-- Embedding of `NewCollector` (collector.go lines 33-46). -/
def NewCollector {D : Type} (F : Type) (P : PromLib D) (expiration : Int)
    (possibleMetrics : List Metric) : memoryCachedCollector F D :=
  ⟨gocacheNew F D expiration (expiration * 10),
    possibleMetrics.map P.PrometheusDescription, possibleMetrics⟩

/-- The cache key `fmt.Sprintf("%s|%s", metric.PrometheusName, topic)`. -/
def cacheKey (name topic : Str) : Str :=
  name ++ '|' :: topic

/-- Embedding of `memoryCachedCollector.Observe` (collector.go lines 48-56) at
the instant `now`. -/
def Observe {F D : Type} (P : PromLib D) (c : memoryCachedCollector F D) (metric : Metric)
    (topic : Str) (v : F) (expiration : Int) (labelValues : List Str) (now : Int) :
    memoryCachedCollector F D :=
  if P.constMetricOk metric labelValues then
    let m : ConstMetric F D := ⟨P.PrometheusDescription metric, v, labelValues⟩
    let key := cacheKey metric.PrometheusName topic
    { c with cache := cacheSet c.cache key ⟨m, now⟩ expiration now }
  else c

/-- Embedding of `memoryCachedCollector.Describe` (collector.go lines 58-62):
the descriptors sent on the channel, in order. -/
def Describe {F D : Type} (c : memoryCachedCollector F D) : List D :=
  c.descriptions

/-- Embedding of `memoryCachedCollector.getMetricByName` (collector.go lines
79-86). -/
def getMetricByName {F D : Type} (c : memoryCachedCollector F D) (name : Str) :
    Option Metric :=
  c.metrics.find? (fun metric => decide (metric.PrometheusName = name))

/-- A sample `prometheus.NewMetricWithTimestamp(t, m)`. -/
structure Sample (F D : Type) where
  ts : Int
  m : ConstMetric F D
  deriving DecidableEq, Repr

/-- The loop of `Collect` (collector.go lines 66-76) over the items `Items()`
returned: the samples sent on the channel, or `none` for a run-time failure. -/
def collectItems {F D : Type} (c : memoryCachedCollector F D) (now : Int) :
    List (Str × Item F D) → Option (List (Sample F D))
  | [] => some []
  | (key, rawItem) :: rest =>
    let item := rawItem.Object
    match sliceIndex (stringsSplit '|' key) 0 with
    | none => none
    | some metricName =>
      let sent : List (Sample F D) :=
        match getMetricByName c metricName with
        | some metric => if metric.FakeTS then [⟨now, item.m⟩] else [⟨item.ts, item.m⟩]
        | none => []
      match collectItems c now rest with
      | none => none
      | some more => some (sent ++ more)

/-- Embedding of `memoryCachedCollector.Collect` (collector.go lines 64-77) at
the instant `now`. -/
def Collect {F D : Type} (c : memoryCachedCollector F D) (now : Int) :
    Option (List (Sample F D)) :=
  collectItems c now (cacheItems c.cache now)

/-- The metric name `Collect` recovers from a cache key: the text before the
first `|`. -/
def keyMetricName (key : Str) : Str :=
  key.takeWhile (fun ch => ch ≠ '|')

/-- What `Collect` sends for one live item, in the words of the specification:
a sample with the observation's value and label values when the key's metric
name is the name of a Catalog entry, stamped with the current time when that
entry has the synthetic-timestamp flag and with the recorded time otherwise;
nothing when no Catalog entry has that name. -/
def sampleOf {F D : Type} (c : memoryCachedCollector F D) (now : Int)
    (kv : Str × Item F D) : Option (Sample F D) :=
  match getMetricByName c (keyMetricName kv.1) with
  | some metric => some ⟨if metric.FakeTS then now else kv.2.Object.ts, kv.2.Object.m⟩
  | none => none

/-- The number of pairs of a Catalog entry and a live item whose key's metric
name is the entry's name. -/
def matchingPairs {F D : Type} (catalog : List Metric) (live : List (Str × Item F D)) : Nat :=
  (live.map (fun kv =>
    (catalog.filter (fun e => decide (e.PrometheusName = keyMetricName kv.1))).length)).sum

/-- The store applied to one `Observe` call of a handler, at the instant `now`. -/
def observeCall {F D : Type} (P : PromLib D) (c : memoryCachedCollector F D)
    (call : ObserveCall F) (now : Int) : memoryCachedCollector F D :=
  Observe P c call.metric call.topic call.v call.expiration call.labelValues now

/-- An operation on the collector: an `Observe` call, a `Collect` call, or a
background deletion of expired items, each with its instant. -/
inductive StoreOp (F : Type) where
  | observe (metric : Metric) (topic : Str) (v : F) (expiration : Int)
      (labelValues : List Str) (now : Int) : StoreOp F
  | collect (now : Int) : StoreOp F
  | deleteExpired (now : Int) : StoreOp F

/-- The collector after one operation; `Collect` only reads it. -/
def runOp {F D : Type} (P : PromLib D) (c : memoryCachedCollector F D) :
    StoreOp F → memoryCachedCollector F D
  | .observe metric topic v expiration labelValues now =>
    Observe P c metric topic v expiration labelValues now
  | .collect _ => c
  | .deleteExpired now => { c with cache := cacheDeleteExpired c.cache now }

/-- The collector after a sequence of operations. -/
def runOps {F D : Type} (P : PromLib D) (c : memoryCachedCollector F D)
    (ops : List (StoreOp F)) : memoryCachedCollector F D :=
  ops.foldl (runOp P) c

/-- Whether an operation is an `Observe` call on the cache key `key`. -/
def observesKey {F : Type} (key : Str) : StoreOp F → Bool
  | .observe metric topic _ _ _ _ => decide (cacheKey metric.PrometheusName topic = key)
  | _ => false

/-- The expiration `cache.Set` applies for the duration `d`: the cache's
default when `d` is 0. -/
def effectiveExpiration {F D : Type} (c : memoryCachedCollector F D) (d : Int) : Int :=
  if d = 0 then c.cache.defaultExpiration else d

/-! ## A reference instance of the standard library, for evaluating examples

The theorems below hold for every `GoLib`.  The instance here is used to run
the handlers on concrete messages.  It covers plain decimal numerals
(an optional sign, digits, an optional fraction) and JSON texts without
escape sequences or exponents; floating-point values are decimal fractions. -/

/-- A decimal fraction `mant / 10 ^ scale`, kept with no trailing zero in the
fraction: `⟨2512, 2⟩` is `25.12`. -/
structure Dec where
  mant : Int
  scale : Nat
  deriving DecidableEq, Repr

/-- Value of a string of decimal digits, `none` when a character is not a digit. -/
def digitsValue : Str → Nat → Option Nat
  | [], acc => some acc
  | c :: cs, acc =>
    if '0' ≤ c ∧ c ≤ '9' then digitsValue cs (acc * 10 + (c.toNat - 48)) else none

/-- Remove the zeros that end a string of digits. -/
def dropTrailingZeros (s : Str) : Str :=
  (s.reverse.dropWhile (fun c => c = '0')).reverse

/-- Parse of an unsigned numeral `digits` or `digits.digits`. -/
def refParseUnsigned (body : Str) : Option (Nat × Nat) :=
  match stringsSplitN2 '.' body with
  | [ip] => if ip = [] then none else (digitsValue ip 0).map (fun n => (n, 0))
  | [ip, fp] =>
    if ip = [] ∨ fp = [] then none
    else
      let fp1 := dropTrailingZeros fp
      (digitsValue (ip ++ fp1) 0).map (fun n => (n, fp1.length))
  | _ => none

/-- Reference `strconv.ParseFloat` on plain decimal numerals. -/
def refParseFloat (s : Str) : Option Dec :=
  match s with
  | '-' :: body => (refParseUnsigned body).map (fun p => ⟨-(p.1 : Int), p.2⟩)
  | '+' :: body => (refParseUnsigned body).map (fun p => ⟨(p.1 : Int), p.2⟩)
  | body => (refParseUnsigned body).map (fun p => ⟨(p.1 : Int), p.2⟩)

/-- Decimal text of a `Dec`. -/
def refFormatDec (d : Dec) : Str :=
  let digits := Nat.toDigits 10 d.mant.natAbs
  let padded := List.replicate (d.scale + 1 - digits.length) '0' ++ digits
  let ip := padded.take (padded.length - d.scale)
  let fp := padded.drop (padded.length - d.scale)
  (if d.mant < 0 then ['-'] else []) ++ ip ++ (if d.scale = 0 then [] else '.' :: fp)

/-- Reference `fmt.Sprintf("%v", value)`.  The elements of arrays and maps are
not rendered: the texts `[...]` and `map[...]` stand for them. -/
def refSprintV : JSONValue Dec → Str
  | .null => "<nil>".toList
  | .bool true => "true".toList
  | .bool false => "false".toList
  | .num d => refFormatDec d
  | .str s => s
  | .arr _ => "[...]".toList
  | .obj _ => "map[...]".toList

/-- Skip JSON white space. -/
def skipWs (s : Str) : Str :=
  s.dropWhile (fun c => c = ' ' ∨ c = '\n' ∨ c = '\t' ∨ c = '\r')

/-- Read a JSON string body up to its closing quote; escapes are not supported. -/
def readString : Str → Str → Option (Str × Str)
  | [], _ => none
  | c :: cs, acc =>
    if c = '\x22' then some (acc.reverse, cs)
    else if c = '\x5c' then none
    else readString cs (c :: acc)

/-- Store `v` under `k`, replacing an earlier value (the last duplicate wins). -/
def mapStore {F : Type} (m : JSONMap F) (k : Str) (v : JSONValue F) : JSONMap F :=
  m.filter (fun e => e.1 ≠ k) ++ [(k, v)]

mutual
/-- Reference JSON value parser, bounded by `fuel`. -/
def refParseValue : Nat → Str → Option (JSONValue Dec × Str)
  | 0, _ => none
  | fuel + 1, s =>
    match skipWs s with
    | '\x7b' :: r =>
      match skipWs r with
      | '\x7d' :: r1 => some (.obj [], r1)
      | r1 => (refParseMembers fuel r1 []).map (fun p => (.obj p.1, p.2))
    | '[' :: r =>
      match skipWs r with
      | ']' :: r1 => some (.arr [], r1)
      | r1 => (refParseElems fuel r1 []).map (fun p => (.arr p.1, p.2))
    | '\x22' :: r => (readString r []).map (fun p => (.str p.1, p.2))
    | 't' :: 'r' :: 'u' :: 'e' :: r => some (.bool true, r)
    | 'f' :: 'a' :: 'l' :: 's' :: 'e' :: r => some (.bool false, r)
    | 'n' :: 'u' :: 'l' :: 'l' :: r => some (.null, r)
    | r =>
      let numeral := r.takeWhile (fun c => ('0' ≤ c ∧ c ≤ '9') ∨ c = '-' ∨ c = '.')
      match numeral with
      | '+' :: _ => none
      | _ => (refParseFloat numeral).map (fun d => (.num d, r.drop numeral.length))
/-- Members of an object after its opening brace. -/
def refParseMembers : Nat → Str → JSONMap Dec → Option (JSONMap Dec × Str)
  | 0, _, _ => none
  | fuel + 1, s, acc =>
    match skipWs s with
    | '\x22' :: r =>
      match readString r [] with
      | none => none
      | some (key, r1) =>
        match skipWs r1 with
        | ':' :: r2 =>
          match refParseValue fuel r2 with
          | none => none
          | some (v, r3) =>
            match skipWs r3 with
            | ',' :: r4 => refParseMembers fuel r4 (mapStore acc key v)
            | '\x7d' :: r4 => some (mapStore acc key v, r4)
            | _ => none
        | _ => none
    | _ => none
/-- Elements of an array after its opening bracket. -/
def refParseElems : Nat → Str → List (JSONValue Dec) → Option (List (JSONValue Dec) × Str)
  | 0, _, _ => none
  | fuel + 1, s, acc =>
    match refParseValue fuel s with
    | none => none
    | some (v, r) =>
      match skipWs r with
      | ',' :: r1 => refParseElems fuel r1 (acc ++ [v])
      | ']' :: r1 => some (acc ++ [v], r1)
      | _ => none
end

/-- Reference `json.Unmarshal` into an empty `map[string]interface{}`: the text
must be one JSON object (or `null`, which leaves the map empty). -/
def refUnmarshal (payload : Str) : Option (JSONMap Dec) :=
  match refParseValue (payload.length + 1) payload with
  | some (.obj m, r) => if skipWs r = [] then some m else none
  | some (.null, r) => if skipWs r = [] then some [] else none
  | _ => none

/-- The reference standard library. -/
def refLib : GoLib Dec :=
  ⟨refParseFloat, refSprintV, refUnmarshal⟩

/-! ## Example inputs -/

/-- The topic of the messages in the examples. -/
def exampleTopic : Str := "/topic/level2/level3/device".toList

/-- A metric named `temp` (also its base name, as `NewMessageHandler` sets it)
with two topic labels and the given field list. -/
def exampleMetric (fields : List Str) : Metric :=
  ⟨"temp".toList, "temp".toList, "/topic/level2/level3/#".toList,
    [("customTopic".toList, 2), ("customTopic2".toList, 3)], fields, 60000000000, false⟩

/-- The payload `{"temperatures":{"out":12.5}}`. -/
def payloadTemperatures : Str :=
  "\x7b\x22temperatures\x22:\x7b\x22out\x22:12.5\x7d\x7d".toList

/-- The payload `{"size":-5,"city":"Tokyo"}`. -/
def payloadSizeCity : Str :=
  "\x7b\x22size\x22:-5,\x22city\x22:\x22Tokyo\x22\x7d".toList

/-- The payload `{"a":{"b":{"x":1}},"a_b":5}`. -/
def payloadObjectLeaf : Str :=
  "\x7b\x22a\x22:\x7b\x22b\x22:\x7b\x22x\x22:1\x7d\x7d,\x22a_b\x22:5\x7d".toList

/-- The payload `{"total": {"count": 22, "unknown": "none"}, "random": "2"}`. -/
def payloadTotals : Str :=
  "\x7b\x22total\x22: \x7b\x22count\x22: 22, \x22unknown\x22: \x22none\x22\x7d, \x22random\x22: \x222\x22\x7d".toList

/-- The decoded form of `payloadTotals`. -/
def mapTotals : JSONMap Dec :=
  [("total".toList, .obj [("count".toList, .num ⟨22, 0⟩), ("unknown".toList, .str "none".toList)]),
   ("random".toList, .str "2".toList)]

/-- The decoded form of `{"total_count": 7, "total": 1}`. -/
def mapUnderscore : JSONMap Dec :=
  [("total_count".toList, .num ⟨7, 0⟩), ("total".toList, .num ⟨1, 0⟩)]

/-- The decoded form of `payloadObjectLeaf`. -/
def mapObjectLeaf : JSONMap Dec :=
  [("a".toList, .obj [("b".toList, .obj [("x".toList, .num ⟨1, 0⟩)])]),
   ("a_b".toList, .num ⟨5, 0⟩)]

/-- A reference Prometheus client for the examples: the descriptor of a metric
is its name with its label names (`topic` and the label keys), and a constant
metric is accepted when it has one label value per label name. -/
def refProm : PromLib (Str × List Str) :=
  ⟨fun metric => (metric.PrometheusName, "topic".toList :: KeysInOrder metric.TopicLabels),
   fun metric labelValues => decide (labelValues.length = 1 + metric.TopicLabels.length)⟩

/-- The label values the handlers build for `exampleTopic` and `exampleMetric`. -/
def exampleLabels : List Str :=
  [exampleTopic, "level2".toList, "level3".toList]

/-- A collector with a default expiration of one hour whose Catalog is the
scalar metric `temp`. -/
def exampleCollector : memoryCachedCollector Dec (Str × List Str) :=
  NewCollector Dec refProm 3600000000000 [exampleMetric []]

/-- The collector `exampleCollector` after observing 25.12 for `temp` on
`exampleTopic` at the instant 1000, with an expiration of one minute. -/
def exampleStored : memoryCachedCollector Dec (Str × List Str) :=
  Observe refProm exampleCollector (exampleMetric []) exampleTopic ⟨2512, 2⟩ 60000000000
    exampleLabels 1000

/-- The payload `{"a|b":1}`. -/
def payloadBar : Str :=
  "\x7b\x22a|b\x22:1\x7d".toList

/-- The payload of the handler test:
`{"city":"Tokyo", "temperatures": {"out": 12.5, "in": 22.15}, "size": -5}`. -/
def payloadTest : Str :=
  "\x7b\x22city\x22:\x22Tokyo\x22, \x22temperatures\x22: \x7b\x22out\x22: 12.5, \x22in\x22: 22.15\x7d, \x22size\x22: -5\x7d".toList

/-- The decoded form of `payloadTest`. -/
def mapTest : JSONMap Dec :=
  [("city".toList, .str "Tokyo".toList),
   ("temperatures".toList, .obj [("out".toList, .num ⟨125, 1⟩), ("in".toList, .num ⟨2215, 2⟩)]),
   ("size".toList, .num ⟨-5, 0⟩)]

/-- The store after a handler for `metric` has processed the messages `msgs`,
each with the instant of its `Observe` calls. -/
def handleMessages {F D : Type} (L : GoLib F) (P : PromLib D) (metric : Metric)
    (c : memoryCachedCollector F D) (msgs : List (Message × Int)) : memoryCachedCollector F D :=
  msgs.foldl (fun st mt =>
    ((observed L metric mt.1).getD []).foldl (fun st2 call => observeCall P st2 call mt.2) st) c

/-- The collector `exampleCollector` after observing 25.12 for the metric named
`a|b` on the topic `c`, at the instant 1000. -/
def exampleBarStored : memoryCachedCollector Dec (Str × List Str) :=
  Observe refProm exampleCollector { exampleMetric [] with PrometheusName := "a|b".toList }
    "c".toList ⟨2512, 2⟩ 60000000000 exampleLabels 1000

/-- The collector `exampleBarStored` after observing -5 for the metric named
`a` on the topic `b|c`, at the instant 2000. -/
def exampleBarOverwritten : memoryCachedCollector Dec (Str × List Str) :=
  Observe refProm exampleBarStored { exampleMetric [] with PrometheusName := "a".toList }
    "b|c".toList ⟨-5, 0⟩ 60000000000 exampleLabels 2000

/-! ## Splitting strings -/

theorem stringsSplit_ne_nil (sep : Char) (s : Str) : stringsSplit sep s ≠ [] := by
  cases s with
  | nil => simp [stringsSplit]
  | cons c cs =>
    unfold stringsSplit
    split
    · simp
    · split <;> simp

theorem stringsSplit_length_pos (sep : Char) (s : Str) : 0 < (stringsSplit sep s).length :=
  List.length_pos.mpr (stringsSplit_ne_nil sep s)

theorem stringsSplit_no_sep (sep : Char) (l : Str) (hl : sep ∉ l) :
    stringsSplit sep l = [l] := by
  induction l with
  | nil => rfl
  | cons c cs ih =>
    have hc : c ≠ sep := fun h => hl (by simp [h])
    have hcs : sep ∉ cs := fun h => hl (List.mem_cons_of_mem _ h)
    simp [stringsSplit, hc, ih hcs]

theorem stringsSplit_append_sep (sep : Char) (l rest : Str) (hl : sep ∉ l) :
    stringsSplit sep (l ++ sep :: rest) = l :: stringsSplit sep rest := by
  induction l with
  | nil => simp [stringsSplit]
  | cons c cs ih =>
    have hc : c ≠ sep := fun h => hl (by simp [h])
    have hcs : sep ∉ cs := fun h => hl (List.mem_cons_of_mem _ h)
    simp [stringsSplit, hc, ih hcs]

theorem stringsSplit_level_slashTopic (levels : List Str) (hl : ∀ l ∈ levels, '/' ∉ l) :
    ∀ l : Str, '/' ∉ l → stringsSplit '/' (l ++ slashTopic levels) = l :: levels := by
  induction levels with
  | nil =>
    intro l h
    simpa [slashTopic] using stringsSplit_no_sep '/' l h
  | cons l1 ls ih =>
    intro l h
    have h1 : '/' ∉ l1 := hl l1 (by simp)
    have hls : ∀ x ∈ ls, '/' ∉ x := fun x hx => hl x (List.mem_cons_of_mem _ hx)
    have e : slashTopic (l1 :: ls) = '/' :: (l1 ++ slashTopic ls) := by
      simp [slashTopic]
    rw [e, stringsSplit_append_sep '/' l _ h, ih hls l1 h1]

theorem stringsSplit_slashTopic (levels : List Str) (hl : ∀ l ∈ levels, '/' ∉ l) :
    stringsSplit '/' (slashTopic levels) = [] :: levels := by
  simpa using stringsSplit_level_slashTopic levels hl [] (by simp)

/-! ## `getTopicPart` -/

theorem sliceIndex_nat {α : Type} (s : List α) (i : Nat) : sliceIndex s (i : Int) = s.get? i := by
  simp [sliceIndex]

theorem getTopicPart_pos (topic : Str) (i : Nat) (h0 : 0 < i)
    (hi : i < (stringsSplit '/' topic).length) :
    getTopicPart topic (i : Int) = (stringsSplit '/' topic).get? i := by
  have h1 : (0 : Int) < (i : Int) := by exact_mod_cast h0
  have h2 : (i : Int) < ((stringsSplit '/' topic).length : Int) := by exact_mod_cast hi
  simp only [getTopicPart, gt_iff_lt, h1, h2, and_self, if_true, sliceIndex_nat]

theorem getTopicPart_neg (topic : Str) (j : Nat) (h0 : 0 < j)
    (hj : j ≤ (stringsSplit '/' topic).length) :
    getTopicPart topic (-(j : Int)) =
      (stringsSplit '/' topic).get? ((stringsSplit '/' topic).length - j) := by
  have h1 : ¬ ((0 : Int) < -(j : Int)) := by omega
  have h2 : -(j : Int) < 0 := by omega
  have h3 : -(j : Int) ≥ -((stringsSplit '/' topic).length : Int) := by omega
  have e : ((stringsSplit '/' topic).length : Int) + -(j : Int)
      = (((stringsSplit '/' topic).length - j : Nat) : Int) := by omega
  simp only [getTopicPart, gt_iff_lt, h1, false_and, if_false, h2, h3, and_self, if_true, e,
    sliceIndex_nat]

theorem getTopicPart_out_of_range (topic : Str) (idx : Int)
    (h : idx = 0 ∨ ((stringsSplit '/' topic).length : Int) ≤ idx
      ∨ idx < -((stringsSplit '/' topic).length : Int)) :
    getTopicPart topic idx = some [] := by
  have h1 : ¬ (idx > 0 ∧ idx < ((stringsSplit '/' topic).length : Int)) := by omega
  have h2 : ¬ (idx < 0 ∧ idx ≥ -((stringsSplit '/' topic).length : Int)) := by omega
  simp only [getTopicPart, h1, h2, if_false]

theorem getTopicPart_isSome (topic : Str) (idx : Int) : (getTopicPart topic idx).isSome = true := by
  have hn := stringsSplit_length_pos '/' topic
  by_cases hp : 0 < idx ∧ idx < ((stringsSplit '/' topic).length : Int)
  · obtain ⟨i, rfl⟩ : ∃ i : Nat, idx = (i : Int) := ⟨idx.toNat, by omega⟩
    have hi : i < (stringsSplit '/' topic).length := by omega
    rw [getTopicPart_pos topic i (by omega) hi, List.get?_eq_getElem?,
      List.getElem?_eq_getElem hi]
    rfl
  · by_cases hq : idx < 0 ∧ idx ≥ -((stringsSplit '/' topic).length : Int)
    · obtain ⟨j, rfl⟩ : ∃ j : Nat, idx = -(j : Int) := ⟨(-idx).toNat, by omega⟩
      have hj : (stringsSplit '/' topic).length - j < (stringsSplit '/' topic).length := by omega
      rw [getTopicPart_neg topic j (by omega) (by omega), List.get?_eq_getElem?,
        List.getElem?_eq_getElem hj]
      rfl
    · rw [getTopicPart_out_of_range topic idx (by omega)]
      rfl

/-- C5 (as stated, refuted): on the topic `a/b` (segments `["a", "b"]`, `n = 2`)
index 1 does not give the first segment `s[0] = "a"` but `s[1] = "b"`, and
index 2 = n does not give `s[1] = "b"` but the empty string. -/
theorem getTopicPart_not_one_based :
    stringsSplit '/' "a/b".toList = ["a".toList, "b".toList] ∧
    getTopicPart "a/b".toList 1 = some "b".toList ∧
    getTopicPart "a/b".toList 1 ≠ (stringsSplit '/' "a/b".toList).get? (1 - 1) ∧
    getTopicPart "a/b".toList 2 = some [] ∧
    getTopicPart "a/b".toList 2 ≠ (stringsSplit '/' "a/b".toList).get? (2 - 1) := by
  decide

/-- C5 (amended): with `s` the `/`-separated segments of the topic and `n` their
number, an index `idx` in `[1, n-1]` selects `s[idx]` (position counted from 0,
so no positive index selects `s[0]`) and is the mirror image of the negative
index `idx - n`; an index in `[-n, -1]` selects `s[n+idx]`; the index `n`
gives the empty string. -/
theorem getTopicPart_selects_segment (topic : Str) (idx : Int) :
    (1 ≤ idx → idx < ((stringsSplit '/' topic).length : Int) →
      (∃ seg, getTopicPart topic idx = some seg ∧
        (stringsSplit '/' topic).get? idx.toNat = some seg) ∧
      getTopicPart topic idx
        = getTopicPart topic (idx - ((stringsSplit '/' topic).length : Int))) ∧
    (-((stringsSplit '/' topic).length : Int) ≤ idx → idx ≤ -1 →
      ∃ seg, getTopicPart topic idx = some seg ∧
        (stringsSplit '/' topic).get? (((stringsSplit '/' topic).length : Int) + idx).toNat
          = some seg) ∧
    (idx = ((stringsSplit '/' topic).length : Int) → getTopicPart topic idx = some []) := by
  refine ⟨?_, ?_, ?_⟩
  · intro h1 h2
    obtain ⟨i, rfl⟩ : ∃ i : Nat, idx = (i : Int) := ⟨idx.toNat, by omega⟩
    have hi : i < (stringsSplit '/' topic).length := by omega
    have hpos := getTopicPart_pos topic i (by omega) hi
    refine ⟨⟨(stringsSplit '/' topic)[i], ?_, ?_⟩, ?_⟩
    · rw [hpos, List.get?_eq_getElem?, List.getElem?_eq_getElem hi]
    · rw [Int.toNat_ofNat, List.get?_eq_getElem?, List.getElem?_eq_getElem hi]
    · have e : (i : Int) - ((stringsSplit '/' topic).length : Int)
          = -((((stringsSplit '/' topic).length - i : Nat)) : Int) := by omega
      rw [e, getTopicPart_neg topic _ (by omega) (by omega), hpos]
      congr 1
      omega
  · intro h1 h2
    obtain ⟨j, rfl⟩ : ∃ j : Nat, idx = -(j : Int) := ⟨(-idx).toNat, by omega⟩
    have hj : (stringsSplit '/' topic).length - j < (stringsSplit '/' topic).length := by omega
    have e : (((stringsSplit '/' topic).length : Int) + -(j : Int)).toNat
        = (stringsSplit '/' topic).length - j := by omega
    refine ⟨(stringsSplit '/' topic)[(stringsSplit '/' topic).length - j], ?_, ?_⟩
    · rw [getTopicPart_neg topic j (by omega) (by omega), List.get?_eq_getElem?,
        List.getElem?_eq_getElem hj]
    · rw [e, List.get?_eq_getElem?, List.getElem?_eq_getElem hj]
  · intro h
    exact getTopicPart_out_of_range topic idx (by omega)

/-- C5 (amended), evaluated on the topic `x/y/z` at the indices 1, -2 and 3. -/
theorem getTopicPart_selects_segment_witness :
    ((∃ seg, getTopicPart "x/y/z".toList 1 = some seg ∧
        (stringsSplit '/' "x/y/z".toList).get? (1 : Int).toNat = some seg) ∧
      getTopicPart "x/y/z".toList 1
        = getTopicPart "x/y/z".toList (1 - ((stringsSplit '/' "x/y/z".toList).length : Int))) ∧
    (∃ seg, getTopicPart "x/y/z".toList (-2) = some seg ∧
      (stringsSplit '/' "x/y/z".toList).get?
        (((stringsSplit '/' "x/y/z".toList).length : Int) + (-2)).toNat = some seg) ∧
    getTopicPart "x/y/z".toList 3 = some [] :=
  ⟨(getTopicPart_selects_segment "x/y/z".toList 1).1 (by decide) (by decide),
   (getTopicPart_selects_segment "x/y/z".toList (-2)).2.1 (by decide) (by decide),
   (getTopicPart_selects_segment "x/y/z".toList 3).2.2 (by decide)⟩

/-- C6: on the topic `"/" + l1 + ... + "/" + lk` (k ≥ 1, no level containing
`/`; the statement needs no lower bound on k), index `i` in `[1, k]` gives the `i`-th level, index `-j` with `j` in
`[1, k]` gives the `j`-th level from the end, and index 0 and every index
greater than `k` give the empty string. -/
theorem getTopicPart_slashTopic (levels : List Str) (hl : ∀ l ∈ levels, '/' ∉ l) :
    (∀ i : Nat, 1 ≤ i → i ≤ levels.length →
      ∃ li, levels.get? (i - 1) = some li ∧
        getTopicPart (slashTopic levels) (i : Int) = some li) ∧
    (∀ j : Nat, 1 ≤ j → j ≤ levels.length →
      ∃ lj, levels.get? (levels.length - j) = some lj ∧
        getTopicPart (slashTopic levels) (-(j : Int)) = some lj) ∧
    getTopicPart (slashTopic levels) 0 = some [] ∧
    (∀ idx : Int, (levels.length : Int) < idx →
      getTopicPart (slashTopic levels) idx = some []) := by
  have hs := stringsSplit_slashTopic levels hl
  have hn : (stringsSplit '/' (slashTopic levels)).length = levels.length + 1 := by
    rw [hs]; rfl
  refine ⟨?_, ?_, ?_, ?_⟩
  · intro i h1 h2
    have hi : i - 1 < levels.length := by omega
    refine ⟨levels[i - 1], ?_, ?_⟩
    · rw [List.get?_eq_getElem?, List.getElem?_eq_getElem hi]
    · rw [getTopicPart_pos _ i (by omega) (by omega), hs]
      obtain ⟨i0, rfl⟩ : ∃ i0, i = i0 + 1 := ⟨i - 1, by omega⟩
      simp only [List.get?_cons_succ, Nat.add_sub_cancel]
      rw [List.get?_eq_getElem?, List.getElem?_eq_getElem (by omega)]
  · intro j h1 h2
    have hj : levels.length - j < levels.length := by omega
    refine ⟨levels[levels.length - j], ?_, ?_⟩
    · rw [List.get?_eq_getElem?, List.getElem?_eq_getElem hj]
    · rw [getTopicPart_neg _ j (by omega) (by omega), hn, hs]
      have e : levels.length + 1 - j = (levels.length - j) + 1 := by omega
      rw [e, List.get?_cons_succ, List.get?_eq_getElem?, List.getElem?_eq_getElem hj]
  · exact getTopicPart_out_of_range _ 0 (Or.inl rfl)
  · intro idx h
    exact getTopicPart_out_of_range _ idx (Or.inr (Or.inl (by omega)))

/-- C6 on the topic `/a/b/c/d`: the statement at the levels `a`, `b`, `c`, `d`. -/
theorem getTopicPart_slashTopic_witness :
    slashTopic ["a".toList, "b".toList, "c".toList, "d".toList] = "/a/b/c/d".toList ∧
    (∃ li, ["a".toList, "b".toList, "c".toList, "d".toList].get? (2 - 1) = some li ∧
      getTopicPart (slashTopic ["a".toList, "b".toList, "c".toList, "d".toList]) (2 : Nat)
        = some li) ∧
    (∃ lj, ["a".toList, "b".toList, "c".toList, "d".toList].get? (4 - 1) = some lj ∧
      getTopicPart (slashTopic ["a".toList, "b".toList, "c".toList, "d".toList]) (-((1 : Nat) : Int))
        = some lj) ∧
    getTopicPart (slashTopic ["a".toList, "b".toList, "c".toList, "d".toList]) 0 = some [] ∧
    getTopicPart (slashTopic ["a".toList, "b".toList, "c".toList, "d".toList]) 10 = some [] :=
  have h := getTopicPart_slashTopic ["a".toList, "b".toList, "c".toList, "d".toList] (by decide)
  ⟨by decide, h.1 2 (by decide) (by decide), h.2.1 1 (by decide) (by decide), h.2.2.1,
    h.2.2.2 10 (by decide)⟩

/-- C7: `getTopicPart` returns a result for every topic and every index (no
slice access is out of range), and for an index outside `[-n, -1] ∪ [1, n]`,
`n` the number of `/`-separated segments, the result is the empty string. -/
theorem getTopicPart_total (topic : Str) (idx : Int) :
    (∃ r, getTopicPart topic idx = some r) ∧
    (¬ (-((stringsSplit '/' topic).length : Int) ≤ idx ∧ idx ≤ -1) →
      ¬ (1 ≤ idx ∧ idx ≤ ((stringsSplit '/' topic).length : Int)) →
      getTopicPart topic idx = some []) := by
  refine ⟨Option.isSome_iff_exists.mp (getTopicPart_isSome topic idx), ?_⟩
  intro h1 h2
  exact getTopicPart_out_of_range topic idx (by omega)

/-- C7 on the empty topic with the most negative 64-bit index, and with index 0. -/
theorem getTopicPart_total_witness :
    (∃ r, getTopicPart [] (-9223372036854775808) = some r) ∧
    getTopicPart [] (-9223372036854775808) = some [] ∧
    getTopicPart "a/b".toList 0 = some [] :=
  ⟨(getTopicPart_total [] (-9223372036854775808)).1,
   (getTopicPart_total [] (-9223372036854775808)).2 (by decide) (by decide),
   (getTopicPart_total "a/b".toList 0).2 (by decide) (by decide)⟩

/-! ## `tryFind` and `findInJSON` -/

theorem stringsSplitN2_no_sep (sep : Char) (s : Str) (hs : sep ∉ s) :
    stringsSplitN2 sep s = [s] := by
  induction s with
  | nil => rfl
  | cons c cs ih =>
    have hc : c ≠ sep := fun h => hs (by simp [h])
    have hcs : sep ∉ cs := fun h => hs (List.mem_cons_of_mem _ h)
    simp [stringsSplitN2, hc, ih hcs]

theorem stringsSplitN2_append_sep (sep : Char) (k rest : Str) (hk : sep ∉ k) :
    stringsSplitN2 sep (k ++ sep :: rest) = [k, rest] := by
  induction k with
  | nil => simp [stringsSplitN2]
  | cons c cs ih =>
    have hc : c ≠ sep := fun h => hk (by simp [h])
    have hcs : sep ∉ cs := fun h => hk (List.mem_cons_of_mem _ h)
    simp [stringsSplitN2, hc, ih hcs]

theorem exists_first_sep (sep : Char) (s : Str) :
    sep ∉ s ∨ ∃ k rest, s = k ++ sep :: rest ∧ sep ∉ k := by
  induction s with
  | nil => exact Or.inl (by simp)
  | cons c cs ih =>
    by_cases hc : c = sep
    · exact Or.inr ⟨[], cs, by simp [hc], by simp⟩
    · rcases ih with h | ⟨k, rest, e, hk⟩
      · refine Or.inl ?_
        intro hmem
        rcases List.mem_cons.mp hmem with h1 | h1
        · exact hc h1.symm
        · exact h h1
      · refine Or.inr ⟨c :: k, rest, by simp [e], ?_⟩
        intro hmem
        rcases List.mem_cons.mp hmem with h1 | h1
        · exact hc h1.symm
        · exact hk h1

theorem stringsReplaceAll_not_mem (old new : Char) (h : old ≠ new) (s : Str) :
    old ∉ stringsReplaceAll old new s := by
  intro hmem
  simp only [stringsReplaceAll, List.mem_map] at hmem
  obtain ⟨c, _, hc⟩ := hmem
  by_cases e : c = old
  · rw [if_pos e] at hc
    exact h hc.symm
  · rw [if_neg e] at hc
    exact e hc

theorem walk_cons_split {F : Type} (m : JSONMap F) (k rest : Str) :
    walk m (k :: stringsSplit '.' rest) =
      match mapIndex m k with
      | some (JSONValue.obj sub) => walk sub (stringsSplit '.' rest)
      | _ => none := by
  obtain ⟨seg2, segs, e⟩ : ∃ seg2 segs, stringsSplit '.' rest = seg2 :: segs := by
    cases hs : stringsSplit '.' rest with
    | nil => exact absurd hs (stringsSplit_ne_nil '.' rest)
    | cons a b => exact ⟨a, b, rfl⟩
  rw [e]
  rfl

theorem tryFindFuel_dots {F : Type} :
    ∀ (fuel : Nat) (m : JSONMap F) (path : Str), path.length < fuel →
      tryFindFuel fuel m path false = walk m (stringsSplit '.' path) := by
  intro fuel
  induction fuel with
  | zero => intro m path h; omega
  | succ fuel ih =>
    intro m path h
    rcases exists_first_sep '.' path with hno | ⟨k, rest, e, hk⟩
    · simp [tryFindFuel, stringsSplitN2_no_sep '.' path hno, stringsSplit_no_sep '.' path hno,
        walk]
    · subst e
      have hlen : rest.length < fuel := by
        simp only [List.length_append, List.length_cons] at h
        omega
      rw [stringsSplit_append_sep '.' k rest hk, walk_cons_split]
      simp only [tryFindFuel, Bool.false_eq_true, if_false,
        stringsSplitN2_append_sep '.' k rest hk]
      cases hv : mapIndex m k with
      | none => rfl
      | some v =>
        cases v with
        | obj sub => exact ih sub rest hlen
        | null => rfl
        | bool b => rfl
        | num f => rfl
        | str t => rfl
        | arr xs => rfl

theorem tryFind_dots {F : Type} (m : JSONMap F) (path : Str) :
    tryFind m path false = walk m (stringsSplit '.' path) :=
  tryFindFuel_dots (path.length + 1) m path (Nat.lt_succ_self _)

theorem tryFind_underscores {F : Type} (m : JSONMap F) (path : Str) :
    tryFind m path true = mapIndex m (stringsReplaceAll '.' '_' path) := by
  have h := stringsReplaceAll_not_mem '.' '_' (by decide) path
  simp [tryFind, tryFindFuel, stringsSplitN2_no_sep '.' _ h]

theorem walk_underscores {F : Type} (m : JSONMap F) (path : Str) :
    walk m (stringsSplit '.' (stringsReplaceAll '.' '_' path))
      = mapIndex m (stringsReplaceAll '.' '_' path) := by
  have h := stringsReplaceAll_not_mem '.' '_' (by decide) path
  rw [stringsSplit_no_sep '.' _ h]
  rfl

theorem findInJSON_eq {F : Type} (m : JSONMap F) (p : Str) (hm : m ≠ []) (hp : p ≠ []) :
    findInJSON m p =
      match walk m (stringsSplit '.' p) with
      | some val => some val
      | none => mapIndex m (stringsReplaceAll '.' '_' p) := by
  have hlen : ¬ (p = [] ∨ m.length = 0) := by
    intro h
    rcases h with h | h
    · exact hp h
    · exact hm (List.length_eq_zero.mp h)
  simp only [findInJSON, hlen, if_false, tryFind_dots, tryFind_underscores]
  cases walk m (stringsSplit '.' p) with
  | some v => rfl
  | none =>
    cases mapIndex m (stringsReplaceAll '.' '_' p) with
    | some v => rfl
    | none => rfl

/-- The bounded recursion agrees with the recursion of the source: `tryFind`
unfolds to the body of the Go function, with `tryFind` itself at the
recursive call. -/
theorem tryFind_unfold {F : Type} (m : JSONMap F) (path : Str) (replaceDots : Bool) :
    tryFind m path replaceDots =
      match stringsSplitN2 '.'
        (if replaceDots then stringsReplaceAll '.' '_' path else path) with
      | [] => none
      | [pp0] => mapIndex m pp0
      | pp0 :: pp1 :: _ =>
        match mapIndex m pp0 with
        | some (JSONValue.obj subJSONMap) => tryFind subJSONMap pp1 replaceDots
        | some _ => none
        | none => none := by
  cases replaceDots with
  | true =>
    have h := stringsReplaceAll_not_mem '.' '_' (by decide) path
    simp [tryFind, tryFindFuel, stringsSplitN2_no_sep '.' _ h]
  | false =>
    rcases exists_first_sep '.' path with hno | ⟨k, rest, e, hk⟩
    · simp [tryFind, tryFindFuel, stringsSplitN2_no_sep '.' path hno]
    · subst e
      have hlen : rest.length < (k ++ '.' :: rest).length := by
        simp only [List.length_append, List.length_cons]
        omega
      simp only [tryFind, tryFindFuel, Bool.false_eq_true, if_false,
        stringsSplitN2_append_sep '.' k rest hk]
      cases hv : mapIndex m k with
      | none => rfl
      | some v =>
        cases v with
        | obj sub =>
          show tryFindFuel (k ++ '.' :: rest).length sub rest false
            = tryFindFuel (rest.length + 1) sub rest false
          rw [tryFindFuel_dots _ sub rest hlen,
            tryFindFuel_dots _ sub rest (Nat.lt_succ_self _)]
        | null => rfl
        | bool b => rfl
        | num f => rfl
        | str t => rfl
        | arr xs => rfl

/-- C3: for a non-empty object `m` and a non-empty path `p`, `findInJSON`
returns the value the walk over the `.`-separated segments of `p` reaches when
that walk succeeds; when it fails, the value of the walk over `p` with every
`.` replaced by `_`, which is a single top-level lookup; and it reports
not-found exactly when both walks fail. -/
theorem findInJSON_walk {F : Type} (m : JSONMap F) (p : Str) (hm : m ≠ []) (hp : p ≠ []) :
    (∀ v, walk m (stringsSplit '.' p) = some v → findInJSON m p = some v) ∧
    (walk m (stringsSplit '.' p) = none →
      findInJSON m p = walk m (stringsSplit '.' (stringsReplaceAll '.' '_' p))) ∧
    walk m (stringsSplit '.' (stringsReplaceAll '.' '_' p))
      = mapIndex m (stringsReplaceAll '.' '_' p) ∧
    (findInJSON m p = none ↔
      walk m (stringsSplit '.' p) = none ∧
      walk m (stringsSplit '.' (stringsReplaceAll '.' '_' p)) = none) := by
  have e := findInJSON_eq m p hm hp
  have u := walk_underscores m p
  refine ⟨?_, ?_, u, ?_⟩
  · intro v hv
    rw [e, hv]
  · intro hv
    rw [e, hv, u]
  · rw [e, u]
    cases walk m (stringsSplit '.' p) with
    | some v => simp
    | none => simp

/-- C3 on `{"total": {"count": 22, "unknown": "none"}, "random": "2"}` with the
path `total.count` (the dotted walk succeeds) and on
`{"total_count": 7, "total": 1}` with the same path (the dotted walk fails on
the number under `total`, the underscore variant is found). -/
theorem findInJSON_walk_witness :
    refUnmarshal payloadTotals = some mapTotals ∧
    findInJSON mapTotals "total.count".toList = some (.num ⟨22, 0⟩) ∧
    findInJSON mapUnderscore "total.count".toList
      = walk mapUnderscore (stringsSplit '.' (stringsReplaceAll '.' '_' "total.count".toList)) ∧
    walk mapUnderscore (stringsSplit '.' (stringsReplaceAll '.' '_' "total.count".toList))
      = some (.num ⟨7, 0⟩) :=
  ⟨rfl,
   (findInJSON_walk mapTotals "total.count".toList (List.cons_ne_nil _ _)
      (List.cons_ne_nil _ _)).1 _ rfl,
   (findInJSON_walk mapUnderscore "total.count".toList (List.cons_ne_nil _ _)
      (List.cons_ne_nil _ _)).2.1 rfl,
   rfl⟩

/-! ## Label values -/

theorem topicLabelIndex_of_nodup (tl : List (Str × Int)) (hnd : (tl.map Prod.fst).Nodup) :
    ∀ spec ∈ tl, topicLabelIndex tl spec.1 = spec.2 := by
  induction tl with
  | nil => intro spec h; cases h
  | cons e rest ih =>
    obtain ⟨k, i⟩ := e
    rw [List.map_cons, List.nodup_cons] at hnd
    intro spec hmem
    rcases List.mem_cons.mp hmem with h | h
    · subst h
      simp [topicLabelIndex]
    · have hne : k ≠ spec.1 := by
        intro hk
        apply hnd.1
        rw [hk]
        exact List.mem_map.mpr ⟨spec, h, rfl⟩
      simp only [topicLabelIndex, hne, if_false]
      exact ih hnd.2 spec h

theorem appendTopicLabels_eq (tl : List (Str × Int)) (topic : Str) :
    ∀ (keys : List Str) (labelValues : List Str),
      appendTopicLabels tl topic keys labelValues =
        some (labelValues ++
          keys.map (fun key => (getTopicPart topic (topicLabelIndex tl key)).getD [])) := by
  intro keys
  induction keys with
  | nil => intro labelValues; simp [appendTopicLabels]
  | cons key keys ih =>
    intro labelValues
    obtain ⟨part, hpart⟩ :=
      Option.isSome_iff_exists.mp (getTopicPart_isSome topic (topicLabelIndex tl key))
    simp [appendTopicLabels, hpart, ih]

theorem buildLabelValues_eq (h : messageHandler) (topic : Str) :
    buildLabelValues h topic =
      some (topic :: (KeysInOrder h.metric.TopicLabels).map
        (fun key => (getTopicPart topic (topicLabelIndex h.metric.TopicLabels key)).getD [])) := by
  simp [buildLabelValues, appendTopicLabels_eq]

theorem labelValues_spec (h : messageHandler) (topic : Str) (labelValues : List Str)
    (hnd : (h.metric.TopicLabels.map Prod.fst).Nodup)
    (hb : buildLabelValues h topic = some labelValues) :
    labelValues.length = 1 + h.metric.TopicLabels.length ∧
    labelValues.map some
      = some topic :: h.metric.TopicLabels.map (fun spec => getTopicPart topic spec.2) := by
  rw [buildLabelValues_eq] at hb
  injection hb with hb
  subst hb
  refine ⟨by simp [KeysInOrder, Nat.add_comm], ?_⟩
  simp only [KeysInOrder, List.map_cons, List.map_map, List.cons.injEq, true_and]
  apply List.map_congr_left
  intro spec hspec
  obtain ⟨part, hpart⟩ := Option.isSome_iff_exists.mp (getTopicPart_isSome topic spec.2)
  simp [topicLabelIndex_of_nodup _ hnd spec hspec, hpart]

/-! ## The handlers -/

theorem restore_name (h : messageHandler) (name : Str) :
    (⟨{ ({ h.metric with PrometheusName := name } : Metric) with
        PrometheusName := h.metric.PrometheusName }⟩ : messageHandler) = h := by
  cases h with
  | mk metric => cases metric; rfl

theorem fieldStep_eq {F : Type} (L : GoLib F) (m : JSONMap F) (topic : Str)
    (labelValues : List Str) (h : messageHandler) (calls : List (ObserveCall F)) (field : Str) :
    fieldStep L m topic labelValues (h, calls) field
      = (h, calls ++ (fieldObservation L h.metric m topic labelValues field).toList) := by
  unfold fieldStep fieldObservation
  cases findInJSON m field with
  | none => simp
  | some value =>
    dsimp only
    cases L.parseFloat (L.sprintV value) with
    | none => simp
    | some f =>
      dsimp only [Option.toList]

theorem fieldLoop_eq {F : Type} (L : GoLib F) (m : JSONMap F) (topic : Str)
    (labelValues : List Str) (h : messageHandler) :
    ∀ (fields : List Str) (calls : List (ObserveCall F)),
      fields.foldl (fieldStep L m topic labelValues) (h, calls)
        = (h, calls ++ fields.filterMap (fieldObservation L h.metric m topic labelValues)) := by
  intro fields
  induction fields with
  | nil => intro calls; simp
  | cons field fields ih =>
    intro calls
    rw [List.foldl_cons, fieldStep_eq, ih]
    cases hf : fieldObservation L h.metric m topic labelValues field with
    | none => simp [List.filterMap_cons, hf]
    | some c => simp [List.filterMap_cons, hf]

theorem getJSONMessageHandler_eq {F : Type} (L : GoLib F) (h : messageHandler) (msg : Message)
    (m : JSONMap F) (labelValues : List Str) (hm : L.unmarshal msg.payload = some m)
    (hb : buildLabelValues h msg.topic = some labelValues) :
    getJSONMessageHandler L h msg =
      some (h, h.metric.JSONField.filterMap
        (fieldObservation L h.metric m msg.topic labelValues)) := by
  simp [getJSONMessageHandler, hm, hb, fieldLoop_eq]

theorem fieldObservation_observation {F : Type} (L : GoLib F) (metric : Metric)
    (fields : List Str) (m : JSONMap F) (topic : Str) (labelValues : List Str) (field : Str) :
    (fieldObservation L { metric with JSONField := fields } m topic labelValues field).map
        observation
      = (fieldObservation L metric m topic labelValues field).map observation := by
  unfold fieldObservation
  cases findInJSON m field with
  | none => rfl
  | some value =>
    dsimp only
    cases L.parseFloat (L.sprintV value) with
    | none => rfl
    | some f => rfl

theorem filterMap_observation {F : Type} (L : GoLib F) (metric : Metric)
    (fields : List Str) (m : JSONMap F) (topic : Str) (labelValues : List Str) (xs : List Str) :
    (xs.filterMap (fieldObservation L { metric with JSONField := fields } m topic
        labelValues)).map observation
      = (xs.filterMap (fieldObservation L metric m topic labelValues)).map observation := by
  induction xs with
  | nil => rfl
  | cons x xs ih =>
    have hx := fieldObservation_observation L metric fields m topic labelValues x
    cases h1 : fieldObservation L { metric with JSONField := fields } m topic labelValues x with
    | none =>
      cases h2 : fieldObservation L metric m topic labelValues x with
      | none => simp [List.filterMap_cons, h1, h2, ih]
      | some c2 => rw [h1, h2] at hx; cases hx
    | some c1 =>
      cases h2 : fieldObservation L metric m topic labelValues x with
      | none => rw [h1, h2] at hx; cases hx
      | some c2 =>
        rw [h1, h2] at hx
        simp only [Option.map_some', Option.some.injEq] at hx
        simp [List.filterMap_cons, h1, h2, ih, hx]

theorem observed_json {F : Type} (L : GoLib F) (metric : Metric) (msg : Message)
    (hf : metric.JSONField ≠ []) :
    observed L metric msg
      = (getJSONMessageHandler L ⟨{ metric with BaseName := metric.PrometheusName }⟩ msg).map
          Prod.snd := by
  have hlen : metric.JSONField.length > 0 := List.length_pos.mpr hf
  simp [observed, NewMessageHandler, hlen]

theorem observed_scalar {F : Type} (L : GoLib F) (metric : Metric) (msg : Message)
    (hf : metric.JSONField = []) :
    observed L metric msg
      = (getMessageHandler L ⟨{ metric with BaseName := metric.PrometheusName }⟩ msg).map
          Prod.snd := by
  simp [observed, NewMessageHandler, hf]

theorem walk_nil {F : Type} (segs : List Str) : walk ([] : JSONMap F) segs = none := by
  cases segs with
  | nil => rfl
  | cons a rest =>
    cases rest with
    | nil => rfl
    | cons b rest2 => rfl

/-- C1 (as stated, refuted): for the field path `temperatures.out` and the
payload `{"temperatures":{"out":12.5}}` the metric `temp` is observed under the
name `temp_temperatures.out`, not under `temp_out`, `out` being the last
segment of the path. -/
theorem observed_name_dotted_field :
    (observed refLib (exampleMetric ["temperatures.out".toList])
        ⟨exampleTopic, payloadTemperatures⟩).map
      (fun calls => calls.map (fun c => (c.metric.PrometheusName, c.v)))
      = some [("temp_temperatures.out".toList, (⟨125, 1⟩ : Dec))] ∧
    (stringsSplit '.' "temperatures.out".toList).getLast? = some "out".toList ∧
    "temp_temperatures.out".toList ≠ "temp".toList ++ '_' :: "out".toList := by
  decide

/-- C1 (amended): for a metric with base name `B` and a non-empty field list,
each field path `p` that resolves to a leaf converting to a float `f` is
observed with value `f` under the name `B + "_" + p`, `p` being the whole
field path; every observation made has such a name; and `p` is its own last
segment when it contains no `.`. -/
theorem observed_name_is_field_path {F : Type} (L : GoLib F) (metric : Metric) (msg : Message)
    (m : JSONMap F) (hf : metric.JSONField ≠ []) (hm : L.unmarshal msg.payload = some m) :
    ∃ calls, observed L metric msg = some calls ∧
      (∀ p ∈ metric.JSONField, ∀ leaf f, findInJSON m p = some leaf →
        L.parseFloat (L.sprintV leaf) = some f →
        ∃ c ∈ calls, c.metric.PrometheusName = metric.PrometheusName ++ '_' :: p ∧ c.v = f) ∧
      (∀ c ∈ calls, ∃ p ∈ metric.JSONField,
        c.metric.PrometheusName = metric.PrometheusName ++ '_' :: p) ∧
      (∀ p ∈ metric.JSONField, '.' ∉ p → (stringsSplit '.' p).getLast? = some p) := by
  obtain ⟨labelValues, hb⟩ : ∃ lv, buildLabelValues
      ⟨{ metric with BaseName := metric.PrometheusName }⟩ msg.topic = some lv :=
    ⟨_, buildLabelValues_eq _ _⟩
  refine ⟨metric.JSONField.filterMap (fieldObservation L
    { metric with BaseName := metric.PrometheusName } m msg.topic labelValues), ?_, ?_, ?_, ?_⟩
  · rw [observed_json L metric msg hf, getJSONMessageHandler_eq L _ msg m labelValues hm hb]
    rfl
  · intro p hp leaf f hleaf hfl
    refine ⟨⟨{ ({ metric with BaseName := metric.PrometheusName } : Metric) with
        PrometheusName := metric.PrometheusName ++ '_' :: p }, msg.topic, f, metric.Expiration,
        labelValues⟩, ?_, rfl, rfl⟩
    rw [List.mem_filterMap]
    refine ⟨p, hp, ?_⟩
    simp [fieldObservation, hleaf, hfl]
  · intro c hc
    rw [List.mem_filterMap] at hc
    obtain ⟨p, hp, hobs⟩ := hc
    refine ⟨p, hp, ?_⟩
    unfold fieldObservation at hobs
    cases hj : findInJSON m p with
    | none => rw [hj] at hobs; cases hobs
    | some value =>
      rw [hj] at hobs
      dsimp only at hobs
      cases hv : L.parseFloat (L.sprintV value) with
      | none => rw [hv] at hobs; cases hobs
      | some f =>
        rw [hv] at hobs
        injection hobs with hobs
        rw [← hobs]
  · intro p _ hdot
    rw [stringsSplit_no_sep '.' p hdot]
    rfl

/-- C1 (amended) on the payload `{"temperatures":{"out":12.5}}` with the field
path `temperatures.out`. -/
theorem observed_name_is_field_path_witness :
    ∃ calls, observed refLib (exampleMetric ["temperatures.out".toList])
        ⟨exampleTopic, payloadTemperatures⟩ = some calls ∧
      (∀ p ∈ (exampleMetric ["temperatures.out".toList]).JSONField, ∀ leaf f,
        findInJSON [("temperatures".toList, .obj [("out".toList, .num ⟨125, 1⟩)])] p = some leaf →
        refLib.parseFloat (refLib.sprintV leaf) = some f →
        ∃ c ∈ calls,
          c.metric.PrometheusName
            = (exampleMetric ["temperatures.out".toList]).PrometheusName ++ '_' :: p ∧
          c.v = f) ∧
      (∀ c ∈ calls, ∃ p ∈ (exampleMetric ["temperatures.out".toList]).JSONField,
        c.metric.PrometheusName
          = (exampleMetric ["temperatures.out".toList]).PrometheusName ++ '_' :: p) ∧
      (∀ p ∈ (exampleMetric ["temperatures.out".toList]).JSONField, '.' ∉ p →
        (stringsSplit '.' p).getLast? = some p) :=
  observed_name_is_field_path refLib (exampleMetric ["temperatures.out".toList])
    ⟨exampleTopic, payloadTemperatures⟩
    [("temperatures".toList, .obj [("out".toList, .num ⟨125, 1⟩)])] (by decide) rfl

/-- C2: for a payload decoding to the object `m`, the JSON handler makes, in
field-list order, exactly the calls `fieldObservation` describes (one per field
whose path resolves to a leaf converting to a float, carrying that float, none
for any other field) and leaves the handler unchanged; every call carries the
message topic and the same label values; and for a field list `xs ++ ys` the
observations are those for `xs` followed by those for `ys`. -/
theorem getJSONMessageHandler_calls {F : Type} (L : GoLib F) (h : messageHandler)
    (msg : Message) (m : JSONMap F) (hm : L.unmarshal msg.payload = some m) :
    ∃ labelValues calls,
      buildLabelValues h msg.topic = some labelValues ∧
      calls = h.metric.JSONField.filterMap
        (fieldObservation L h.metric m msg.topic labelValues) ∧
      getJSONMessageHandler L h msg = some (h, calls) ∧
      (∀ c ∈ calls, c.topic = msg.topic ∧ c.labelValues = labelValues) ∧
      (∀ xs ys, h.metric.JSONField = xs ++ ys →
        ∃ cx cy,
          getJSONMessageHandler L (withFields h xs) msg = some (withFields h xs, cx) ∧
          getJSONMessageHandler L (withFields h ys) msg = some (withFields h ys, cy) ∧
          calls.map observation = cx.map observation ++ cy.map observation) := by
  have hb := buildLabelValues_eq h msg.topic
  refine ⟨_, _, hb, rfl, getJSONMessageHandler_eq L h msg m _ hm hb, ?_, ?_⟩
  · intro c hc
    rw [List.mem_filterMap] at hc
    obtain ⟨p, _, hobs⟩ := hc
    unfold fieldObservation at hobs
    cases hj : findInJSON m p with
    | none => rw [hj] at hobs; cases hobs
    | some value =>
      rw [hj] at hobs
      dsimp only at hobs
      cases hv : L.parseFloat (L.sprintV value) with
      | none => rw [hv] at hobs; cases hobs
      | some f =>
        rw [hv] at hobs
        injection hobs with hobs
        rw [← hobs]
        exact ⟨rfl, rfl⟩
  · intro xs ys hxy
    have hbx : buildLabelValues (withFields h xs) msg.topic = _ := hb
    have hby : buildLabelValues (withFields h ys) msg.topic = _ := hb
    refine ⟨_, _, getJSONMessageHandler_eq L (withFields h xs) msg m _ hm hbx,
      getJSONMessageHandler_eq L (withFields h ys) msg m _ hm hby, ?_⟩
    rw [hxy, List.filterMap_append, List.map_append]
    have ex := filterMap_observation L h.metric xs m msg.topic
      (msg.topic :: (KeysInOrder h.metric.TopicLabels).map
        (fun key => (getTopicPart msg.topic (topicLabelIndex h.metric.TopicLabels key)).getD []))
      xs
    have ey := filterMap_observation L h.metric ys m msg.topic
      (msg.topic :: (KeysInOrder h.metric.TopicLabels).map
        (fun key => (getTopicPart msg.topic (topicLabelIndex h.metric.TopicLabels key)).getD []))
      ys
    exact (congrArg₂ (fun a b => a ++ b) ex ey).symm

/-- C2 on the payload `{"size":-5,"city":"Tokyo"}` with the field list
`["size", "city"]`: the statement at this message, and the single observation
it yields (`temp_size`, value -5). -/
theorem getJSONMessageHandler_calls_witness :
    (∃ labelValues calls,
      buildLabelValues ⟨exampleMetric ["size".toList, "city".toList]⟩ exampleTopic
        = some labelValues ∧
      calls = (exampleMetric ["size".toList, "city".toList]).JSONField.filterMap
        (fieldObservation refLib (exampleMetric ["size".toList, "city".toList])
          [("size".toList, .num ⟨-5, 0⟩), ("city".toList, .str "Tokyo".toList)]
          exampleTopic labelValues) ∧
      getJSONMessageHandler refLib ⟨exampleMetric ["size".toList, "city".toList]⟩
        ⟨exampleTopic, payloadSizeCity⟩
        = some (⟨exampleMetric ["size".toList, "city".toList]⟩, calls) ∧
      (∀ c ∈ calls, c.topic = exampleTopic ∧ c.labelValues = labelValues) ∧
      (∀ xs ys, (exampleMetric ["size".toList, "city".toList]).JSONField = xs ++ ys →
        ∃ cx cy,
          getJSONMessageHandler refLib
              (withFields ⟨exampleMetric ["size".toList, "city".toList]⟩ xs)
              ⟨exampleTopic, payloadSizeCity⟩
            = some (withFields ⟨exampleMetric ["size".toList, "city".toList]⟩ xs, cx) ∧
          getJSONMessageHandler refLib
              (withFields ⟨exampleMetric ["size".toList, "city".toList]⟩ ys)
              ⟨exampleTopic, payloadSizeCity⟩
            = some (withFields ⟨exampleMetric ["size".toList, "city".toList]⟩ ys, cy) ∧
          calls.map observation = cx.map observation ++ cy.map observation)) ∧
    (getJSONMessageHandler refLib ⟨exampleMetric ["size".toList, "city".toList]⟩
        ⟨exampleTopic, payloadSizeCity⟩).map (fun st => st.2.map observation)
      = some [("temp_size".toList, exampleTopic, (⟨-5, 0⟩ : Dec), 60000000000,
          [exampleTopic, "level2".toList, "level3".toList])] :=
  ⟨getJSONMessageHandler_calls refLib ⟨exampleMetric ["size".toList, "city".toList]⟩
      ⟨exampleTopic, payloadSizeCity⟩
      [("size".toList, .num ⟨-5, 0⟩), ("city".toList, .str "Tokyo".toList)] rfl,
   rfl⟩

/-- C4 (as stated, refuted): on the payload `{"a":{"b":{"x":1}},"a_b":5}` with
the field path `a.b` the resolver returns the object under `a.b`; the value 5
under `a_b` is not observed, and no observation is made at all. -/
theorem object_leaf_not_retried :
    refUnmarshal payloadObjectLeaf = some mapObjectLeaf ∧
    findInJSON mapObjectLeaf "a.b".toList = some (.obj [("x".toList, .num ⟨1, 0⟩)]) ∧
    mapIndex mapObjectLeaf "a_b".toList = some (.num ⟨5, 0⟩) ∧
    observed refLib (exampleMetric ["a.b".toList]) ⟨exampleTopic, payloadObjectLeaf⟩
      = some [] :=
  ⟨rfl, rfl, rfl, by decide⟩

/-- C4 (amended): when the dotted walk of a non-empty field path `p` ends on an
object, the resolver returns that object as found and does not try the
underscore variant; the text of a map not being a number, the loop iteration
for `p` makes no `Observe` call, whatever the key with `.` replaced by `_`
holds, and the handler of a metric whose field list is `[p]` makes none. -/
theorem findInJSON_object_leaf {F : Type} (L : GoLib F) (h : messageHandler) (msg : Message)
    (m : JSONMap F) (p : Str) (o : JSONMap F) (hp : p ≠ [])
    (hw : walk m (stringsSplit '.' p) = some (.obj o))
    (hlib : L.parseFloat (L.sprintV (.obj o)) = none) :
    findInJSON m p = some (.obj o) ∧
    (∀ topic labelValues st, fieldStep L m topic labelValues st p = st) ∧
    (L.unmarshal msg.payload = some m → h.metric.JSONField = [p] →
      getJSONMessageHandler L h msg = some (h, [])) := by
  have hm : m ≠ [] := by
    intro e
    rw [e, walk_nil] at hw
    cases hw
  have hfind : findInJSON m p = some (.obj o) := by
    rw [findInJSON_eq m p hm hp, hw]
  refine ⟨hfind, ?_, ?_⟩
  · intro topic labelValues st
    simp [fieldStep, hfind, hlib]
  · intro hun hfields
    rw [getJSONMessageHandler_eq L h msg m _ hun (buildLabelValues_eq h msg.topic), hfields]
    simp [fieldObservation, hfind, hlib]

/-- C4 (amended) on the payload `{"a":{"b":{"x":1}},"a_b":5}` with the field
path `a.b`. -/
theorem findInJSON_object_leaf_witness :
    findInJSON mapObjectLeaf "a.b".toList = some (.obj [("x".toList, .num ⟨1, 0⟩)]) ∧
    (∀ topic labelValues st,
      fieldStep refLib mapObjectLeaf topic labelValues st "a.b".toList = st) ∧
    getJSONMessageHandler refLib ⟨exampleMetric ["a.b".toList]⟩
      ⟨exampleTopic, payloadObjectLeaf⟩ = some (⟨exampleMetric ["a.b".toList]⟩, []) :=
  have h := findInJSON_object_leaf refLib ⟨exampleMetric ["a.b".toList]⟩
    ⟨exampleTopic, payloadObjectLeaf⟩ mapObjectLeaf "a.b".toList
    [("x".toList, .num ⟨1, 0⟩)] (List.cons_ne_nil _ _) rfl rfl
  ⟨h.1, h.2.1, h.2.2 rfl rfl⟩

theorem getMessageHandler_calls {F : Type} (L : GoLib F) (h : messageHandler) (msg : Message) :
    ∃ calls, getMessageHandler L h msg = some (h, calls) ∧
      ∀ c ∈ calls, buildLabelValues h msg.topic = some c.labelValues := by
  have hb := buildLabelValues_eq h msg.topic
  cases hp : L.parseFloat msg.payload with
  | none =>
    refine ⟨[], ?_, fun c hc => by cases hc⟩
    simp [getMessageHandler, hp]
  | some v =>
    refine ⟨[⟨h.metric, msg.topic, v, h.metric.Expiration,
      msg.topic :: (KeysInOrder h.metric.TopicLabels).map
        (fun key => (getTopicPart msg.topic (topicLabelIndex h.metric.TopicLabels key)).getD [])⟩],
      ?_, ?_⟩
    · simp only [getMessageHandler, hp, hb]
    · intro c hc
      rw [List.mem_singleton] at hc
      rw [hc]
      exact hb

theorem getJSONMessageHandler_labelValues {F : Type} (L : GoLib F) (h : messageHandler)
    (msg : Message) :
    ∃ calls, getJSONMessageHandler L h msg = some (h, calls) ∧
      ∀ c ∈ calls, buildLabelValues h msg.topic = some c.labelValues := by
  have hb := buildLabelValues_eq h msg.topic
  cases hm : L.unmarshal msg.payload with
  | none =>
    refine ⟨[], ?_, fun c hc => by cases hc⟩
    simp [getJSONMessageHandler, hm]
  | some m =>
    refine ⟨_, getJSONMessageHandler_eq L h msg m _ hm hb, ?_⟩
    intro c hc
    rw [List.mem_filterMap] at hc
    obtain ⟨p, _, hobs⟩ := hc
    unfold fieldObservation at hobs
    cases hj : findInJSON m p with
    | none => rw [hj] at hobs; cases hobs
    | some value =>
      rw [hj] at hobs
      dsimp only at hobs
      cases hv : L.parseFloat (L.sprintV value) with
      | none => rw [hv] at hobs; cases hobs
      | some f =>
        rw [hv] at hobs
        injection hobs with hobs
        rw [← hobs]
        exact hb

/-- C8: both handlers return for every message, and each `Observe` call they
make carries label values of length `1 + (number of label specs)`, whose first
element is the message topic and whose element for each label spec, in the
order of the label keys, is `getTopicPart(topic, index of the spec)`.  The
keys of the label map are distinct, as in every Go map. -/
theorem observe_labelValues {F : Type} (L : GoLib F) (h : messageHandler) (msg : Message)
    (hnd : (h.metric.TopicLabels.map Prod.fst).Nodup) :
    (∃ calls, getMessageHandler L h msg = some (h, calls) ∧
      ∀ c ∈ calls,
        c.labelValues.length = 1 + h.metric.TopicLabels.length ∧
        c.labelValues.head? = some msg.topic ∧
        c.labelValues.map some
          = some msg.topic ::
              h.metric.TopicLabels.map (fun spec => getTopicPart msg.topic spec.2)) ∧
    (∃ calls, getJSONMessageHandler L h msg = some (h, calls) ∧
      ∀ c ∈ calls,
        c.labelValues.length = 1 + h.metric.TopicLabels.length ∧
        c.labelValues.head? = some msg.topic ∧
        c.labelValues.map some
          = some msg.topic ::
              h.metric.TopicLabels.map (fun spec => getTopicPart msg.topic spec.2)) := by
  have key : ∀ lv : List Str, buildLabelValues h msg.topic = some lv →
      lv.length = 1 + h.metric.TopicLabels.length ∧ lv.head? = some msg.topic ∧
      lv.map some
        = some msg.topic :: h.metric.TopicLabels.map (fun spec => getTopicPart msg.topic spec.2) := by
    intro lv hlv
    have hs := labelValues_spec h msg.topic lv hnd hlv
    refine ⟨hs.1, ?_, hs.2⟩
    rw [buildLabelValues_eq] at hlv
    injection hlv with hlv
    rw [← hlv]
    rfl
  obtain ⟨c1, h1, hc1⟩ := getMessageHandler_calls L h msg
  obtain ⟨c2, h2, hc2⟩ := getJSONMessageHandler_labelValues L h msg
  exact ⟨⟨c1, h1, fun c hc => key _ (hc1 c hc)⟩, ⟨c2, h2, fun c hc => key _ (hc2 c hc)⟩⟩

/-- C8 on the scalar payload `25.12` and on the JSON payload
`{"size":-5,"city":"Tokyo"}`, with the label specs `customTopic: 2` and
`customTopic2: 3`: the statement at these messages, and the label values of the
call each handler makes. -/
theorem observe_labelValues_witness :
    (∃ calls, getMessageHandler refLib ⟨exampleMetric []⟩ ⟨exampleTopic, "25.12".toList⟩
        = some (⟨exampleMetric []⟩, calls) ∧
      ∀ c ∈ calls,
        c.labelValues.length = 1 + (exampleMetric []).TopicLabels.length ∧
        c.labelValues.head? = some exampleTopic ∧
        c.labelValues.map some
          = some exampleTopic ::
              (exampleMetric []).TopicLabels.map (fun spec => getTopicPart exampleTopic spec.2)) ∧
    (∃ calls, getJSONMessageHandler refLib ⟨exampleMetric ["size".toList]⟩
        ⟨exampleTopic, payloadSizeCity⟩ = some (⟨exampleMetric ["size".toList]⟩, calls) ∧
      ∀ c ∈ calls,
        c.labelValues.length = 1 + (exampleMetric ["size".toList]).TopicLabels.length ∧
        c.labelValues.head? = some exampleTopic ∧
        c.labelValues.map some
          = some exampleTopic ::
              (exampleMetric ["size".toList]).TopicLabels.map
                (fun spec => getTopicPart exampleTopic spec.2)) ∧
    (getMessageHandler refLib ⟨exampleMetric []⟩ ⟨exampleTopic, "25.12".toList⟩).map
        (fun st => st.2.map (fun c => c.labelValues))
      = some [[exampleTopic, "level2".toList, "level3".toList]] ∧
    (getJSONMessageHandler refLib ⟨exampleMetric ["size".toList]⟩
        ⟨exampleTopic, payloadSizeCity⟩).map (fun st => st.2.map (fun c => c.labelValues))
      = some [[exampleTopic, "level2".toList, "level3".toList]] :=
  ⟨(observe_labelValues refLib ⟨exampleMetric []⟩ ⟨exampleTopic, "25.12".toList⟩
      (by decide)).1,
   (observe_labelValues refLib ⟨exampleMetric ["size".toList]⟩ ⟨exampleTopic, payloadSizeCity⟩
      (by decide)).2,
   rfl, rfl⟩

/-- C9: when the whole payload fails to parse (not a number, for a metric
without field paths; not a JSON object, for a metric with field paths) the
handler built for the metric returns without making any `Observe` call. -/
theorem observed_nothing_on_unparseable {F : Type} (L : GoLib F) (metric : Metric)
    (msg : Message)
    (hfail : (metric.JSONField = [] ∧ L.parseFloat msg.payload = none) ∨
      (metric.JSONField ≠ [] ∧ L.unmarshal msg.payload = none)) :
    observed L metric msg = some [] := by
  rcases hfail with ⟨hf, hp⟩ | ⟨hf, hu⟩
  · rw [observed_scalar L metric msg hf]
    simp [getMessageHandler, hp]
  · rw [observed_json L metric msg hf]
    simp [getJSONMessageHandler, hu]

/-- C9 on the payload `not a number`, for a metric without field paths and for
a metric with the field paths `size` and `city`. -/
theorem observed_nothing_on_unparseable_witness :
    observed refLib (exampleMetric []) ⟨exampleTopic, "not a number".toList⟩ = some [] ∧
    observed refLib (exampleMetric ["size".toList, "city".toList])
      ⟨exampleTopic, "not a number".toList⟩ = some [] :=
  ⟨observed_nothing_on_unparseable refLib (exampleMetric [])
      ⟨exampleTopic, "not a number".toList⟩ (Or.inl ⟨rfl, rfl⟩),
   observed_nothing_on_unparseable refLib (exampleMetric ["size".toList, "city".toList])
      ⟨exampleTopic, "not a number".toList⟩ (Or.inr ⟨by decide, rfl⟩)⟩

/-- C10: for a metric without field paths and a payload that parses as the
float `v`, the handler makes exactly one `Observe` call: the metric under its
configured name, the message topic, the value `v` and the metric's
expiration. -/
theorem scalar_handler_one_call {F : Type} (L : GoLib F) (metric : Metric) (msg : Message)
    (v : F) (hf : metric.JSONField = []) (hv : L.parseFloat msg.payload = some v) :
    ∃ c, observed L metric msg = some [c] ∧
      c.metric = { metric with BaseName := metric.PrometheusName } ∧
      c.metric.PrometheusName = metric.PrometheusName ∧
      c.topic = msg.topic ∧ c.v = v ∧ c.expiration = metric.Expiration := by
  rw [observed_scalar L metric msg hf]
  refine ⟨⟨{ metric with BaseName := metric.PrometheusName }, msg.topic, v, metric.Expiration,
    msg.topic :: (KeysInOrder metric.TopicLabels).map
      (fun key => (getTopicPart msg.topic (topicLabelIndex metric.TopicLabels key)).getD [])⟩,
    ?_, rfl, rfl, rfl, rfl, rfl⟩
  simp [getMessageHandler, hv, buildLabelValues_eq]

/-- C10 on the payload `25.12`: one observation, of value 25.12. -/
theorem scalar_handler_one_call_witness :
    (∃ c, observed refLib (exampleMetric []) ⟨exampleTopic, "25.12".toList⟩ = some [c] ∧
      c.metric = { exampleMetric [] with BaseName := (exampleMetric []).PrometheusName } ∧
      c.metric.PrometheusName = (exampleMetric []).PrometheusName ∧
      c.topic = exampleTopic ∧ c.v = (⟨2512, 2⟩ : Dec) ∧
      c.expiration = (exampleMetric []).Expiration) ∧
    (observed refLib (exampleMetric []) ⟨exampleTopic, "25.12".toList⟩).map
        (fun calls => calls.map observation)
      = some [("temp".toList, exampleTopic, (⟨2512, 2⟩ : Dec), 60000000000,
          [exampleTopic, "level2".toList, "level3".toList])] :=
  ⟨scalar_handler_one_call refLib (exampleMetric []) ⟨exampleTopic, "25.12".toList⟩ ⟨2512, 2⟩
      rfl rfl,
   rfl⟩

/-! ## Cache keys -/

theorem stringsSplit_first (sep : Char) (s : Str) :
    sliceIndex (stringsSplit sep s) 0 = some (s.takeWhile (fun ch => ch ≠ sep)) := by
  induction s with
  | nil => rfl
  | cons c cs ih =>
    by_cases hc : c = sep
    · simp [stringsSplit, hc, sliceIndex]
    · cases hsp : stringsSplit sep cs with
      | nil => exact absurd hsp (stringsSplit_ne_nil sep cs)
      | cons piece pieces =>
        rw [hsp] at ih
        have hp : piece = cs.takeWhile (fun ch => ch ≠ sep) := by
          simpa [sliceIndex] using ih
        simp [stringsSplit, hc, hsp, sliceIndex, hp]

theorem collect_name_eq (key : Str) :
    sliceIndex (stringsSplit '|' key) 0 = some (keyMetricName key) :=
  stringsSplit_first '|' key

theorem keyMetricName_no_bar (key : Str) : '|' ∉ keyMetricName key := by
  intro h
  have := List.mem_takeWhile_imp h
  simp at this

theorem takeWhile_append_sep (sep : Char) (a b : Str) (ha : sep ∉ a) :
    (a ++ sep :: b).takeWhile (fun ch => ch ≠ sep) = a := by
  induction a with
  | nil => simp
  | cons c cs ih =>
    have hc : c ≠ sep := fun h => ha (by simp [h])
    have hcs : sep ∉ cs := fun h => ha (List.mem_cons_of_mem _ h)
    simpa [List.takeWhile_cons, hc] using ih hcs

theorem keyMetricName_cacheKey (name topic : Str) (h : '|' ∉ name) :
    keyMetricName (cacheKey name topic) = name :=
  takeWhile_append_sep '|' name topic h

theorem keyMetricName_cacheKey_ne (name topic : Str) (h : '|' ∈ name) :
    keyMetricName (cacheKey name topic) ≠ name := by
  intro e
  have hno := keyMetricName_no_bar (cacheKey name topic)
  rw [e] at hno
  exact hno h

theorem cacheKey_inj (n1 t1 n2 t2 : Str) (h1 : '|' ∉ n1) (h2 : '|' ∉ n2)
    (e : cacheKey n1 t1 = cacheKey n2 t2) : n1 = n2 ∧ t1 = t2 := by
  have hn : n1 = n2 := by
    rw [← keyMetricName_cacheKey n1 t1 h1, ← keyMetricName_cacheKey n2 t2 h2, e]
  subst hn
  refine ⟨rfl, ?_⟩
  have e2 : '|' :: t1 = '|' :: t2 := List.append_cancel_left e
  exact List.tail_eq_of_cons_eq e2

/-- C20: the key `name + "|" + topic` determines name and topic when the names
contain no `|`; the name `Collect` recovers (the first part of the key split on
`|`) is then the original name, whatever the topic; and for a name that
contains `|` the recovered name differs from it. -/
theorem cacheKey_name_recovery :
    (∀ n1 t1 n2 t2 : Str, '|' ∉ n1 → '|' ∉ n2 → cacheKey n1 t1 = cacheKey n2 t2 →
      n1 = n2 ∧ t1 = t2) ∧
    (∀ n t : Str, '|' ∉ n → sliceIndex (stringsSplit '|' (cacheKey n t)) 0 = some n) ∧
    (∀ n t : Str, '|' ∈ n → sliceIndex (stringsSplit '|' (cacheKey n t)) 0 ≠ some n) := by
  refine ⟨cacheKey_inj, ?_, ?_⟩
  · intro n t h
    rw [collect_name_eq, keyMetricName_cacheKey n t h]
  · intro n t h e
    rw [collect_name_eq] at e
    exact keyMetricName_cacheKey_ne n t h (Option.some.inj e)

/-- C20 on the name `temp` with the topic `a|b`, and on the name `te|mp`. -/
theorem cacheKey_name_recovery_witness :
    (cacheKey "temp".toList "a|b".toList = cacheKey "temp".toList "a|b".toList →
      "temp".toList = "temp".toList ∧ "a|b".toList = "a|b".toList) ∧
    sliceIndex (stringsSplit '|' (cacheKey "temp".toList "a|b".toList)) 0
      = some "temp".toList ∧
    sliceIndex (stringsSplit '|' (cacheKey "te|mp".toList "a".toList)) 0
      ≠ some "te|mp".toList ∧
    sliceIndex (stringsSplit '|' (cacheKey "te|mp".toList "a".toList)) 0 = some "te".toList :=
  ⟨cacheKey_name_recovery.1 "temp".toList "a|b".toList "temp".toList "a|b".toList
      (by decide) (by decide),
   cacheKey_name_recovery.2.1 "temp".toList "a|b".toList (by decide),
   cacheKey_name_recovery.2.2 "te|mp".toList "a".toList (by decide),
   by decide⟩

/-! ## The collector -/

theorem collectItems_eq {F D : Type} (c : memoryCachedCollector F D) (now : Int)
    (items : List (Str × Item F D)) :
    collectItems c now items = some (items.filterMap (sampleOf c now)) := by
  induction items with
  | nil => rfl
  | cons kv rest ih =>
    obtain ⟨key, rawItem⟩ := kv
    simp only [collectItems, collect_name_eq, ih, List.filterMap_cons, sampleOf]
    cases getMetricByName c (keyMetricName key) with
    | none => rfl
    | some metric =>
      by_cases hf : metric.FakeTS = true
      · simp [hf]
      · simp [hf]

theorem Collect_eq {F D : Type} (c : memoryCachedCollector F D) (now : Int) :
    Collect c now = some ((cacheItems c.cache now).filterMap (sampleOf c now)) :=
  collectItems_eq c now _

theorem Observe_descriptions {F D : Type} (P : PromLib D) (c : memoryCachedCollector F D)
    (metric : Metric) (topic : Str) (v : F) (expiration : Int) (labelValues : List Str)
    (now : Int) :
    (Observe P c metric topic v expiration labelValues now).descriptions = c.descriptions ∧
    (Observe P c metric topic v expiration labelValues now).metrics = c.metrics ∧
    (Observe P c metric topic v expiration labelValues now).cache.defaultExpiration
      = c.cache.defaultExpiration := by
  unfold Observe
  by_cases hok : P.constMetricOk metric labelValues = true
  · simp [hok, cacheSet]
  · simp [hok]

theorem runOp_static {F D : Type} (P : PromLib D) (c : memoryCachedCollector F D)
    (op : StoreOp F) :
    (runOp P c op).descriptions = c.descriptions ∧ (runOp P c op).metrics = c.metrics ∧
    (runOp P c op).cache.defaultExpiration = c.cache.defaultExpiration := by
  cases op with
  | observe metric topic v expiration labelValues now =>
    exact Observe_descriptions P c metric topic v expiration labelValues now
  | collect now => exact ⟨rfl, rfl, rfl⟩
  | deleteExpired now => exact ⟨rfl, rfl, rfl⟩

theorem runOps_static {F D : Type} (P : PromLib D) (ops : List (StoreOp F)) :
    ∀ c : memoryCachedCollector F D,
      (runOps P c ops).descriptions = c.descriptions ∧ (runOps P c ops).metrics = c.metrics ∧
      (runOps P c ops).cache.defaultExpiration = c.cache.defaultExpiration := by
  induction ops with
  | nil => intro c; exact ⟨rfl, rfl, rfl⟩
  | cons op ops ih =>
    intro c
    have h1 := runOp_static P c op
    have h2 := ih (runOp P c op)
    exact ⟨h2.1.trans h1.1, h2.2.1.trans h1.2.1, h2.2.2.trans h1.2.2⟩

/-- C17: `Describe` emits one descriptor per Catalog entry, in Catalog order,
in every state of the store: the collector `NewCollector` returns, and the
collector after any sequence of `Observe` calls, `Collect` calls and background
deletions of expired items. -/
theorem Describe_static {F D : Type} (P : PromLib D) (expiration : Int)
    (possibleMetrics : List Metric) (ops : List (StoreOp F)) :
    Describe (runOps P (NewCollector F P expiration possibleMetrics) ops)
      = possibleMetrics.map P.PrometheusDescription ∧
    (Describe (runOps P (NewCollector F P expiration possibleMetrics) ops)).length
      = possibleMetrics.length ∧
    Describe (runOps P (NewCollector F P expiration possibleMetrics) ops)
      = Describe (NewCollector F P expiration possibleMetrics) := by
  have h := (runOps_static P ops (NewCollector F P expiration possibleMetrics)).1
  refine ⟨h, ?_, h⟩
  unfold Describe
  rw [h]
  simp [NewCollector]

/-! ## Map assignment -/

theorem mapGet_mapSet_self {α : Type} (l : List (Str × α)) (k : Str) (x : α) :
    mapGet (mapSet l k x) k = some x := by
  induction l with
  | nil => simp [mapSet, mapGet]
  | cons e rest ih =>
    obtain ⟨k1, y⟩ := e
    by_cases hk : k1 = k
    · simp [mapSet, mapGet, hk]
    · simp [mapSet, mapGet, hk, ih]

theorem mapGet_mapSet_other {α : Type} (l : List (Str × α)) (k k2 : Str) (x : α)
    (hne : k2 ≠ k) : mapGet (mapSet l k x) k2 = mapGet l k2 := by
  induction l with
  | nil =>
    have hne2 : k ≠ k2 := fun h => hne h.symm
    simp [mapSet, mapGet, hne2]
  | cons e rest ih =>
    obtain ⟨k1, y⟩ := e
    by_cases hk : k1 = k
    · subst hk
      have hne2 : k1 ≠ k2 := fun h => hne h.symm
      simp [mapSet, mapGet, hne2]
    · by_cases hk2 : k1 = k2
      · subst hk2
        simp [mapSet, mapGet, hk]
      · simp [mapSet, mapGet, hk, hk2, ih]

theorem mapSet_length_of_present {α : Type} (l : List (Str × α)) (k : Str) (x : α)
    (h : (mapGet l k).isSome = true) : (mapSet l k x).length = l.length := by
  induction l with
  | nil => simp [mapGet] at h
  | cons e rest ih =>
    obtain ⟨k1, y⟩ := e
    by_cases hk : k1 = k
    · simp [mapSet, hk]
    · simp only [mapGet, hk, if_false] at h
      simp [mapSet, hk, ih h]

theorem mapSet_length_le {α : Type} (l : List (Str × α)) (k : Str) (x : α) :
    (mapSet l k x).length ≤ l.length + 1 := by
  induction l with
  | nil => simp [mapSet]
  | cons e rest ih =>
    obtain ⟨k1, y⟩ := e
    by_cases hk : k1 = k
    · simp [mapSet, hk]
    · simp only [mapSet, hk, if_false, List.length_cons]
      omega

theorem mem_mapSet {α : Type} (l : List (Str × α)) (k : Str) (x : α) (kv : Str × α)
    (h : kv ∈ mapSet l k x) : kv = (k, x) ∨ kv ∈ l := by
  induction l with
  | nil =>
    simp only [mapSet, List.mem_singleton] at h
    exact Or.inl h
  | cons e rest ih =>
    obtain ⟨k1, y⟩ := e
    by_cases hk : k1 = k
    · simp only [mapSet, hk, if_true, List.mem_cons] at h
      rcases h with h | h
      · exact Or.inl h
      · exact Or.inr (List.mem_cons_of_mem _ h)
    · simp only [mapSet, hk, if_false, List.mem_cons] at h
      rcases h with h | h
      · exact Or.inr (List.mem_cons.mpr (Or.inl h))
      · rcases ih h with h2 | h2
        · exact Or.inl h2
        · exact Or.inr (List.mem_cons_of_mem _ h2)

theorem mapSet_keys {α : Type} (l : List (Str × α)) (k : Str) (x : α) :
    (mapSet l k x).map Prod.fst
      = if k ∈ l.map Prod.fst then l.map Prod.fst else l.map Prod.fst ++ [k] := by
  induction l with
  | nil => simp [mapSet]
  | cons e rest ih =>
    obtain ⟨k1, y⟩ := e
    by_cases hk : k1 = k
    · subst hk
      simp only [mapSet, if_true, List.map_cons, List.mem_cons, true_or]
    · have hk2 : k ≠ k1 := fun h => hk h.symm
      simp only [mapSet, hk, if_false, List.map_cons, ih, List.mem_cons, hk2, false_or]
      by_cases hmem : k ∈ rest.map Prod.fst
      · simp [hmem]
      · simp [hmem]

theorem mapSet_nodup {α : Type} (l : List (Str × α)) (k : Str) (x : α)
    (h : (l.map Prod.fst).Nodup) : ((mapSet l k x).map Prod.fst).Nodup := by
  rw [mapSet_keys]
  by_cases hmem : k ∈ l.map Prod.fst
  · simpa [hmem] using h
  · rw [if_neg hmem]
    rw [List.nodup_append]
    refine ⟨h, List.nodup_singleton k, ?_⟩
    intro a ha hb
    rw [List.mem_singleton] at hb
    exact hmem (hb ▸ ha)

theorem mapGet_of_mem_nodup {α : Type} (l : List (Str × α)) (h : (l.map Prod.fst).Nodup)
    (kv : Str × α) (hmem : kv ∈ l) : mapGet l kv.1 = some kv.2 := by
  induction l with
  | nil => cases hmem
  | cons e rest ih =>
    obtain ⟨k1, y⟩ := e
    rw [List.map_cons, List.nodup_cons] at h
    rcases List.mem_cons.mp hmem with h1 | h1
    · subst h1
      simp [mapGet]
    · have hne : k1 ≠ kv.1 := by
        intro hk
        apply h.1
        rw [hk]
        exact List.mem_map.mpr ⟨kv, h1, rfl⟩
      simp only [mapGet, hne, if_false]
      exact ih h.2 h1

theorem filter_keys_nodup {α : Type} (l : List (Str × α)) (p : Str × α → Bool)
    (h : (l.map Prod.fst).Nodup) : ((l.filter p).map Prod.fst).Nodup :=
  List.Nodup.sublist ((List.filter_sublist l).map Prod.fst) h

/-! ## `Observe` -/

theorem Observe_items {F D : Type} (P : PromLib D) (c : memoryCachedCollector F D)
    (metric : Metric) (topic : Str) (v : F) (expiration : Int) (labelValues : List Str)
    (now : Int) (hok : P.constMetricOk metric labelValues = true) :
    (Observe P c metric topic v expiration labelValues now).cache.items
      = mapSet c.cache.items (cacheKey metric.PrometheusName topic)
          ⟨⟨⟨P.PrometheusDescription metric, v, labelValues⟩, now⟩,
            if effectiveExpiration c expiration > 0
            then now + effectiveExpiration c expiration else 0⟩ := by
  simp only [Observe, hok, if_true, cacheSet, effectiveExpiration]

theorem Observe_rejected {F D : Type} (P : PromLib D) (c : memoryCachedCollector F D)
    (metric : Metric) (topic : Str) (v : F) (expiration : Int) (labelValues : List Str)
    (now : Int) (hok : P.constMetricOk metric labelValues = false) :
    Observe P c metric topic v expiration labelValues now = c := by
  simp [Observe, hok]

/-- C14 (as stated, refuted): the pairs (`a|b`, `c`) and (`a`, `b|c`) differ but
have the same cache key `a|b|c`; after 25.12 is observed for the first, an
accepted `Observe` of -5 for the second replaces it, so the observation stored
under another (name, topic) pair is not left unchanged. -/
theorem colliding_pairs_overwrite :
    ("a|b".toList, "c".toList) ≠ ("a".toList, "b|c".toList) ∧
    cacheKey "a|b".toList "c".toList = cacheKey "a".toList "b|c".toList ∧
    (mapGet exampleBarStored.cache.items (cacheKey "a|b".toList "c".toList)).map
        (fun item => (item.Object.m.v, item.Object.ts))
      = some ((⟨2512, 2⟩ : Dec), 1000) ∧
    (mapGet exampleBarOverwritten.cache.items (cacheKey "a|b".toList "c".toList)).map
        (fun item => (item.Object.m.v, item.Object.ts))
      = some ((⟨-5, 0⟩ : Dec), 2000) ∧
    exampleBarOverwritten.cache.items.length = 1 := by
  decide

/-- C14 (amended): the cache of the new collector has no two items with one
cache key `name|topic`, and `Observe` keeps it so; a successful `Observe`
stores under its key the new value, label values and recorded time with a
fresh expiration; when the key already held an observation the number of
items is unchanged (and it never grows by more than one); what is stored under
every other cache key is unchanged, and so is what is stored for every other
(name, topic) pair when the names contain no `|`. -/
theorem Observe_upsert {F D : Type} (P : PromLib D) (c : memoryCachedCollector F D)
    (metric : Metric) (topic : Str) (v : F) (expiration : Int) (labelValues : List Str)
    (now : Int) (hok : P.constMetricOk metric labelValues = true) :
    (∀ (e : Int) (cs : List Metric),
      ((NewCollector F P e cs).cache.items.map Prod.fst).Nodup) ∧
    ((c.cache.items.map Prod.fst).Nodup →
      ((Observe P c metric topic v expiration labelValues now).cache.items.map
        Prod.fst).Nodup) ∧
    mapGet (Observe P c metric topic v expiration labelValues now).cache.items
        (cacheKey metric.PrometheusName topic)
      = some ⟨⟨⟨P.PrometheusDescription metric, v, labelValues⟩, now⟩,
          if effectiveExpiration c expiration > 0
          then now + effectiveExpiration c expiration else 0⟩ ∧
    ((mapGet c.cache.items (cacheKey metric.PrometheusName topic)).isSome = true →
      (Observe P c metric topic v expiration labelValues now).cache.items.length
        = c.cache.items.length) ∧
    (Observe P c metric topic v expiration labelValues now).cache.items.length
      ≤ c.cache.items.length + 1 ∧
    (∀ k : Str, k ≠ cacheKey metric.PrometheusName topic →
      mapGet (Observe P c metric topic v expiration labelValues now).cache.items k
        = mapGet c.cache.items k) ∧
    (∀ name2 topic2 : Str, '|' ∉ metric.PrometheusName → '|' ∉ name2 →
      (name2, topic2) ≠ (metric.PrometheusName, topic) →
      mapGet (Observe P c metric topic v expiration labelValues now).cache.items
          (cacheKey name2 topic2)
        = mapGet c.cache.items (cacheKey name2 topic2)) := by
  have hi := Observe_items P c metric topic v expiration labelValues now hok
  refine ⟨?_, ?_, ?_, ?_, ?_, ?_, ?_⟩
  · intro e cs
    simp [NewCollector, gocacheNew]
  · intro hnd
    rw [hi]
    exact mapSet_nodup _ _ _ hnd
  · rw [hi]
    exact mapGet_mapSet_self _ _ _
  · intro hpresent
    rw [hi]
    exact mapSet_length_of_present _ _ _ hpresent
  · rw [hi]
    exact mapSet_length_le _ _ _
  · intro k hk
    rw [hi]
    exact mapGet_mapSet_other _ _ _ _ hk
  · intro name2 topic2 h1 h2 hne
    rw [hi]
    apply mapGet_mapSet_other
    intro e
    have := cacheKey_inj name2 topic2 metric.PrometheusName topic h2 h1 e
    exact hne (Prod.ext this.1 this.2)

/-- C14 (amended) on a second observation of `temp` on the same topic (value -5
at the instant 2000, after 25.12 at the instant 1000): the item under the key
is the new one, the number of items stays 1, no key is repeated, and nothing
changes for the pair (`temp`, `/other`). -/
theorem Observe_upsert_witness :
    (mapGet (Observe refProm exampleStored (exampleMetric []) exampleTopic (⟨-5, 0⟩ : Dec)
        60000000000 exampleLabels 2000).cache.items
        (cacheKey "temp".toList "/other".toList)
      = mapGet exampleStored.cache.items (cacheKey "temp".toList "/other".toList)) ∧
    ((Observe refProm exampleStored (exampleMetric []) exampleTopic (⟨-5, 0⟩ : Dec)
        60000000000 exampleLabels 2000).cache.items.map Prod.fst).Nodup ∧
    mapGet (Observe refProm exampleStored (exampleMetric []) exampleTopic (⟨-5, 0⟩ : Dec)
        60000000000 exampleLabels 2000).cache.items
        (cacheKey (exampleMetric []).PrometheusName exampleTopic)
      = some ⟨⟨⟨refProm.PrometheusDescription (exampleMetric []), ⟨-5, 0⟩, exampleLabels⟩,
          2000⟩,
          if effectiveExpiration exampleStored 60000000000 > 0
          then 2000 + effectiveExpiration exampleStored 60000000000 else 0⟩ ∧
    (Observe refProm exampleStored (exampleMetric []) exampleTopic (⟨-5, 0⟩ : Dec)
        60000000000 exampleLabels 2000).cache.items.length
      = exampleStored.cache.items.length ∧
    exampleStored.cache.items.length = 1 :=
  have h := Observe_upsert refProm exampleStored (exampleMetric []) exampleTopic
    (⟨-5, 0⟩ : Dec) 60000000000 exampleLabels 2000 (by decide)
  ⟨h.2.2.2.2.2.2 "temp".toList "/other".toList (by decide) (by decide) (by decide),
   h.2.1 (by decide), h.2.2.1, h.2.2.2.1 (by decide), by decide⟩

/-! ## `Collect` -/

theorem getMetricByName_some {F D : Type} (c : memoryCachedCollector F D) (name : Str)
    (e : Metric) (h : getMetricByName c name = some e) :
    e ∈ c.metrics ∧ e.PrometheusName = name := by
  unfold getMetricByName at h
  refine ⟨List.mem_of_find?_eq_some h, ?_⟩
  have := List.find?_some h
  simpa using this

theorem getMetricByName_none {F D : Type} (c : memoryCachedCollector F D) (name : Str) :
    getMetricByName c name = none ↔ ∀ e ∈ c.metrics, e.PrometheusName ≠ name := by
  unfold getMetricByName
  rw [List.find?_eq_none]
  simp

theorem getMetricByName_isSome {F D : Type} (c : memoryCachedCollector F D) (name : Str) :
    (getMetricByName c name).isSome = true ↔ ∃ e ∈ c.metrics, e.PrometheusName = name := by
  constructor
  · intro h
    obtain ⟨e, he⟩ := Option.isSome_iff_exists.mp h
    exact ⟨e, getMetricByName_some c name e he⟩
  · intro h
    obtain ⟨e, hmem, hname⟩ := h
    cases hg : getMetricByName c name with
    | some e2 => rfl
    | none => exact absurd hname ((getMetricByName_none c name).mp hg e hmem)

theorem sampleOf_isSome {F D : Type} (c : memoryCachedCollector F D) (now : Int)
    (kv : Str × Item F D) :
    (sampleOf c now kv).isSome = (getMetricByName c (keyMetricName kv.1)).isSome := by
  unfold sampleOf
  cases getMetricByName c (keyMetricName kv.1) with
  | none => rfl
  | some e => rfl

/-- C12 (as stated, refuted): an `Observe` on the empty store followed by
`Collect` before the expiration elapses yields no sample when the Catalog is
empty, and none when the Catalog holds `temp` and the metric observed is named
`temp_size`, although the observation is stored. -/
theorem roundtrip_needs_catalog_entry :
    Collect (Observe refProm (NewCollector Dec refProm 3600000000000 []) (exampleMetric [])
      exampleTopic (⟨2512, 2⟩ : Dec) 60000000000 exampleLabels 1000) 1001 = some [] ∧
    Collect (Observe refProm exampleCollector
      { exampleMetric [] with PrometheusName := "temp_size".toList } exampleTopic
      (⟨2512, 2⟩ : Dec) 60000000000 exampleLabels 1000) 1001 = some [] ∧
    (Observe refProm exampleCollector
      { exampleMetric [] with PrometheusName := "temp_size".toList } exampleTopic
      (⟨2512, 2⟩ : Dec) 60000000000 exampleLabels 1000).cache.items.length = 1 :=
  ⟨rfl, rfl, rfl⟩

/-- C12 (amended): for a metric whose name contains no `|` and is the name of a
Catalog entry, an `Observe` that the Prometheus client accepts, made on the
empty store at the instant `t0` and followed by `Collect` at an instant `t1`
before the expiration has elapsed, yields exactly one sample, carrying the
value, the label values and a timestamp not before `t0`. -/
theorem roundtrip {F D : Type} (P : PromLib D) (defaultExpiration : Int)
    (catalog : List Metric) (metric : Metric) (topic : Str) (v : F) (expiration : Int)
    (labelValues : List Str) (t0 t1 : Int)
    (hok : P.constMetricOk metric labelValues = true)
    (hbar : '|' ∉ metric.PrometheusName)
    (hcat : ∃ e ∈ catalog, e.PrometheusName = metric.PrometheusName)
    (h01 : t0 ≤ t1) (hexp : t1 < t0 + expiration) :
    ∃ s, Collect (Observe P (NewCollector F P defaultExpiration catalog) metric topic v
          expiration labelValues t0) t1 = some [s] ∧
      s.m.v = v ∧ s.m.labelValues = labelValues ∧ t0 ≤ s.ts := by
  have hpos : expiration > 0 := by omega
  have hne : expiration ≠ 0 := by omega
  have hi := Observe_items P (NewCollector F P defaultExpiration catalog) metric topic v
    expiration labelValues t0 hok
  have heff : effectiveExpiration (NewCollector F P defaultExpiration catalog) expiration
      = expiration := by
    simp [effectiveExpiration, hne]
  rw [heff, if_pos hpos] at hi
  have hitems : (NewCollector F P defaultExpiration catalog).cache.items = [] := rfl
  rw [hitems] at hi
  have hmet := (Observe_descriptions P (NewCollector F P defaultExpiration catalog) metric
    topic v expiration labelValues t0).2.1
  have hlive : cacheItems (Observe P (NewCollector F P defaultExpiration catalog) metric
      topic v expiration labelValues t0).cache t1
      = [(cacheKey metric.PrometheusName topic,
          ⟨⟨⟨P.PrometheusDescription metric, v, labelValues⟩, t0⟩, t0 + expiration⟩)] := by
    simp only [cacheItems, hi, mapSet, itemExpired, List.filter_cons, List.filter_nil]
    have hnot : ¬ (t0 + expiration > 0 ∧ t1 > t0 + expiration) := by omega
    simp [hnot]
  have hsome : (getMetricByName (Observe P (NewCollector F P defaultExpiration catalog)
      metric topic v expiration labelValues t0) metric.PrometheusName).isSome = true := by
    rw [getMetricByName_isSome, hmet]
    exact hcat
  obtain ⟨e, he⟩ := Option.isSome_iff_exists.mp hsome
  refine ⟨⟨if e.FakeTS then t1 else t0, ⟨P.PrometheusDescription metric, v, labelValues⟩⟩,
    ?_, rfl, rfl, ?_⟩
  · rw [Collect_eq, hlive]
    simp [sampleOf, keyMetricName_cacheKey _ _ hbar, he]
  · by_cases hf : e.FakeTS = true
    · simp [hf, h01]
    · simp [hf]

/-- C12 (amended) on the scalar metric `temp`: observed at the instant 1000
with an expiration of one minute, collected at the instant 1001. -/
theorem roundtrip_witness :
    ∃ s, Collect (Observe refProm (NewCollector Dec refProm 3600000000000 [exampleMetric []])
          (exampleMetric []) exampleTopic (⟨2512, 2⟩ : Dec) 60000000000 exampleLabels 1000)
          1001 = some [s] ∧
      s.m.v = (⟨2512, 2⟩ : Dec) ∧ s.m.labelValues = exampleLabels ∧ (1000 : Int) ≤ s.ts :=
  roundtrip refProm 3600000000000 [exampleMetric []] (exampleMetric []) exampleTopic
    (⟨2512, 2⟩ : Dec) 60000000000 exampleLabels 1000 1001 (by decide) (by decide)
    ⟨exampleMetric [], by decide, rfl⟩ (by decide) (by decide)

/-! ## Expiration -/

theorem runOp_keeps_expiration {F D : Type} (P : PromLib D) (key : Str) (e : Int)
    (c : memoryCachedCollector F D) (op : StoreOp F) (hop : observesKey key op = false)
    (hinv : ∀ kv ∈ c.cache.items, kv.1 = key → kv.2.Expiration = e) :
    ∀ kv ∈ (runOp P c op).cache.items, kv.1 = key → kv.2.Expiration = e := by
  cases op with
  | observe metric topic v expiration labelValues now =>
    have hkey : cacheKey metric.PrometheusName topic ≠ key := by
      simpa [observesKey] using hop
    by_cases hok : P.constMetricOk metric labelValues = true
    · intro kv hkv hk
      simp only [runOp] at hkv
      rw [Observe_items P c metric topic v expiration labelValues now hok] at hkv
      rcases mem_mapSet _ _ _ _ hkv with h | h
      · rw [h] at hk
        exact absurd hk hkey
      · exact hinv kv h hk
    · have hno : P.constMetricOk metric labelValues = false := by
        simpa using hok
      simp only [runOp, Observe_rejected P c metric topic v expiration labelValues now hno]
      exact hinv
  | collect now => exact hinv
  | deleteExpired now =>
    intro kv hkv hk
    simp only [runOp, cacheDeleteExpired] at hkv
    exact hinv kv (List.mem_of_mem_filter hkv) hk

theorem runOps_keeps_expiration {F D : Type} (P : PromLib D) (key : Str) (e : Int)
    (ops : List (StoreOp F)) :
    ∀ c : memoryCachedCollector F D, (∀ op ∈ ops, observesKey key op = false) →
      (∀ kv ∈ c.cache.items, kv.1 = key → kv.2.Expiration = e) →
      ∀ kv ∈ (runOps P c ops).cache.items, kv.1 = key → kv.2.Expiration = e := by
  induction ops with
  | nil => intro c _ hinv; exact hinv
  | cons op ops ih =>
    intro c hops hinv
    have h1 := runOp_keeps_expiration P key e c op (hops op (List.mem_cons_self _ _)) hinv
    exact ih (runOp P c op) (fun o ho => hops o (List.mem_cons_of_mem _ ho)) h1

theorem Observe_sets_expiration {F D : Type} (P : PromLib D) (c : memoryCachedCollector F D)
    (metric : Metric) (topic : Str) (v : F) (expiration : Int) (labelValues : List Str)
    (now : Int) (hok : P.constMetricOk metric labelValues = true)
    (hnd : (c.cache.items.map Prod.fst).Nodup) :
    ∀ kv ∈ (Observe P c metric topic v expiration labelValues now).cache.items,
      kv.1 = cacheKey metric.PrometheusName topic →
      kv.2.Expiration = (if effectiveExpiration c expiration > 0
        then now + effectiveExpiration c expiration else 0) := by
  intro kv hkv hk
  have hi := Observe_items P c metric topic v expiration labelValues now hok
  have hnd2 : ((Observe P c metric topic v expiration labelValues now).cache.items.map
      Prod.fst).Nodup := by
    rw [hi]
    exact mapSet_nodup _ _ _ hnd
  have hget := mapGet_of_mem_nodup _ hnd2 kv hkv
  rw [hk, hi, mapGet_mapSet_self] at hget
  have := Option.some.inj hget
  rw [← this]

/-- Every store reached from `NewCollector` has one item per key. -/
theorem runOps_nodup {F D : Type} (P : PromLib D) (ops : List (StoreOp F)) :
    ∀ c : memoryCachedCollector F D, (c.cache.items.map Prod.fst).Nodup →
      ((runOps P c ops).cache.items.map Prod.fst).Nodup := by
  induction ops with
  | nil => intro c h; exact h
  | cons op ops ih =>
    intro c h
    apply ih (runOp P c op)
    cases op with
    | observe metric topic v expiration labelValues now =>
      by_cases hok : P.constMetricOk metric labelValues = true
      · simp only [runOp]
        rw [Observe_items P c metric topic v expiration labelValues now hok]
        exact mapSet_nodup _ _ _ h
      · have hno : P.constMetricOk metric labelValues = false := by
          simpa using hok
        simp only [runOp, Observe_rejected P c metric topic v expiration labelValues now hno]
        exact h
    | collect now => exact h
    | deleteExpired now => exact filter_keys_nodup _ _ h

/-- C13 (as stated, refuted): an observation made with expiration 0 takes the
collector's default expiration (here one hour) and is still collected one
minute later; an observation made with expiration -1 never expires. -/
theorem zero_expiration_is_default :
    (Collect (Observe refProm exampleCollector (exampleMetric []) exampleTopic
        (⟨2512, 2⟩ : Dec) 0 exampleLabels 1000) 60000001000).map List.length = some 1 ∧
    (Collect (Observe refProm exampleCollector (exampleMetric []) exampleTopic
        (⟨2512, 2⟩ : Dec) (-1) exampleLabels 1000) 9000000000000000000).map List.length
      = some 1 :=
  ⟨rfl, rfl⟩

/-- C13 (amended): let `e` be the expiration of an accepted `Observe` at the
instant `t0` (Unix time, not negative), the collector's default standing for
an expiration of 0.  When `e > 0` and no later operation is an `Observe` on the same key, `Collect` at
any instant after `t0 + e` iterates no item under that key, so it returns no
sample for it; its samples are those of the items it iterates. -/
theorem expired_not_collected {F D : Type} (P : PromLib D) (c : memoryCachedCollector F D)
    (metric : Metric) (topic : Str) (v : F) (expiration : Int) (labelValues : List Str)
    (t0 t1 : Int) (ops : List (StoreOp F))
    (hnd : (c.cache.items.map Prod.fst).Nodup)
    (hok : P.constMetricOk metric labelValues = true)
    (hpos : 0 < effectiveExpiration c expiration) (ht0 : 0 ≤ t0)
    (hops : ∀ op ∈ ops, observesKey (cacheKey metric.PrometheusName topic) op = false)
    (hlate : t0 + effectiveExpiration c expiration < t1) :
    (∀ kv ∈ cacheItems
        (runOps P (Observe P c metric topic v expiration labelValues t0) ops).cache t1,
      kv.1 ≠ cacheKey metric.PrometheusName topic) ∧
    Collect (runOps P (Observe P c metric topic v expiration labelValues t0) ops) t1
      = some ((cacheItems
          (runOps P (Observe P c metric topic v expiration labelValues t0) ops).cache
          t1).filterMap
        (sampleOf (runOps P (Observe P c metric topic v expiration labelValues t0) ops) t1)) := by
  refine ⟨?_, Collect_eq _ _⟩
  intro kv hkv hk
  have h0 := Observe_sets_expiration P c metric topic v expiration labelValues t0 hok hnd
  rw [if_pos hpos] at h0
  have h1 := runOps_keeps_expiration P (cacheKey metric.PrometheusName topic)
    (t0 + effectiveExpiration c expiration) ops _ hops h0
  simp only [cacheItems, List.mem_filter] at hkv
  have he := h1 kv hkv.1 hk
  have hexp : itemExpired t1 kv.2 = true := by
    simp only [itemExpired, decide_eq_true_eq]
    rw [he]
    omega
  rw [hexp] at hkv
  exact absurd hkv.2 (by simp)

/-- C13 (amended) on `temp` observed at the instant 1000 with an expiration of
one minute, then another topic observed, expired items deleted and finally
`Collect` one nanosecond after the minute: no item is left under the key and
only the other topic yields a sample. -/
theorem expired_not_collected_witness :
    (∀ kv ∈ cacheItems
        (runOps refProm
          (Observe refProm exampleCollector (exampleMetric []) exampleTopic (⟨2512, 2⟩ : Dec)
            60000000000 exampleLabels 1000)
          [StoreOp.observe (exampleMetric []) "/topic/level2/level3/other".toList ⟨1, 0⟩
              60000000000 exampleLabels 2000,
            StoreOp.deleteExpired 3000]).cache 60000001001,
      kv.1 ≠ cacheKey (exampleMetric []).PrometheusName exampleTopic) ∧
    (Collect
        (runOps refProm
          (Observe refProm exampleCollector (exampleMetric []) exampleTopic (⟨2512, 2⟩ : Dec)
            60000000000 exampleLabels 1000)
          [StoreOp.observe (exampleMetric []) "/topic/level2/level3/other".toList ⟨1, 0⟩
              60000000000 exampleLabels 2000,
            StoreOp.deleteExpired 3000]) 60000001001).map
        (fun samples => samples.map (fun s => s.m.v))
      = some [(⟨1, 0⟩ : Dec)] :=
  ⟨(expired_not_collected refProm exampleCollector (exampleMetric []) exampleTopic
      (⟨2512, 2⟩ : Dec) 60000000000 exampleLabels 1000 60000001001
      [StoreOp.observe (exampleMetric []) "/topic/level2/level3/other".toList ⟨1, 0⟩
          60000000000 exampleLabels 2000,
        StoreOp.deleteExpired 3000]
      (by decide) (by decide) (by decide) (by decide) (by decide) (by decide)).1,
   rfl⟩

/-! ## Samples -/

theorem filterMap_length_filter {α β : Type} (f : α → Option β) (l : List α) :
    (l.filterMap f).length = (l.filter (fun x => (f x).isSome)).length := by
  induction l with
  | nil => rfl
  | cons x rest ih =>
    cases hx : f x with
    | none => simp [List.filterMap_cons, List.filter_cons, hx, ih]
    | some y => simp [List.filterMap_cons, List.filter_cons, hx, ih]

theorem filter_name_length (catalog : List Metric) (name : Str)
    (hnd : (catalog.map (fun e => e.PrometheusName)).Nodup) :
    (catalog.filter (fun e => decide (e.PrometheusName = name))).length
      = if (catalog.find? (fun e => decide (e.PrometheusName = name))).isSome then 1 else 0 := by
  induction catalog with
  | nil => rfl
  | cons e rest ih =>
    rw [List.map_cons, List.nodup_cons] at hnd
    by_cases he : e.PrometheusName = name
    · have hrest : rest.filter (fun x => decide (x.PrometheusName = name)) = [] := by
        rw [List.filter_eq_nil_iff]
        intro x hx hxn
        apply hnd.1
        rw [he]
        exact List.mem_map.mpr ⟨x, hx, by simpa using hxn⟩
      simp [List.filter_cons, List.find?_cons, he, hrest]
    · simp [List.filter_cons, List.find?_cons, he, ih hnd.2]

theorem matchingPairs_eq {F D : Type} (c : memoryCachedCollector F D)
    (live : List (Str × Item F D))
    (hnd : (c.metrics.map (fun e => e.PrometheusName)).Nodup) :
    matchingPairs c.metrics live
      = (live.filter (fun kv => (getMetricByName c (keyMetricName kv.1)).isSome)).length := by
  induction live with
  | nil => rfl
  | cons kv rest ih =>
    unfold matchingPairs at ih ⊢
    rw [List.map_cons, List.sum_cons, ih, filter_name_length c.metrics _ hnd]
    unfold getMetricByName
    by_cases hs : (List.find? (fun metric => decide (metric.PrometheusName = keyMetricName kv.1))
        c.metrics).isSome = true
    · simp [List.filter_cons, hs, Nat.add_comm]
    · simp [List.filter_cons, hs]

/-- C15 (as stated, refuted): with a Catalog of two entries named `temp` and one
live observation of `temp`, `Collect` emits one sample, while there are two
pairs of a Catalog entry and a matching live observation. -/
theorem one_sample_per_observation :
    (Collect (Observe refProm
        (NewCollector Dec refProm 3600000000000 [exampleMetric [], exampleMetric []])
        (exampleMetric []) exampleTopic (⟨2512, 2⟩ : Dec) 60000000000 exampleLabels 1000)
        1001).map List.length = some 1 ∧
    matchingPairs [exampleMetric [], exampleMetric []]
      (cacheItems (Observe refProm
        (NewCollector Dec refProm 3600000000000 [exampleMetric [], exampleMetric []])
        (exampleMetric []) exampleTopic (⟨2512, 2⟩ : Dec) 60000000000 exampleLabels
        1000).cache 1001) = 2 :=
  ⟨rfl, rfl⟩

/-- C15 (amended): `Collect` returns the samples `sampleOf` describes for the
live items: for every Catalog entry and every live item whose key's metric name
is the entry's name there is a sample with the observation's value and label
values; an item whose metric name matches no Catalog entry gives none; the
number of samples is the number of live items whose metric name is the name of
some Catalog entry, which is the number of (entry, observation) pairs when the
Catalog names are pairwise distinct. -/
theorem Collect_samples {F D : Type} (c : memoryCachedCollector F D) (now : Int) :
    ∃ samples, Collect c now = some samples ∧
      samples = (cacheItems c.cache now).filterMap (sampleOf c now) ∧
      (∀ e ∈ c.metrics, ∀ kv ∈ cacheItems c.cache now,
        keyMetricName kv.1 = e.PrometheusName → ∃ s ∈ samples, s.m = kv.2.Object.m) ∧
      (∀ kv ∈ cacheItems c.cache now,
        (∀ e ∈ c.metrics, e.PrometheusName ≠ keyMetricName kv.1) → sampleOf c now kv = none) ∧
      samples.length = ((cacheItems c.cache now).filter
        (fun kv => (getMetricByName c (keyMetricName kv.1)).isSome)).length ∧
      ((c.metrics.map (fun e => e.PrometheusName)).Nodup →
        samples.length = matchingPairs c.metrics (cacheItems c.cache now)) := by
  refine ⟨(cacheItems c.cache now).filterMap (sampleOf c now), Collect_eq c now, rfl,
    ?_, ?_, ?_, ?_⟩
  · intro e he kv hkv hname
    have hsome : (getMetricByName c (keyMetricName kv.1)).isSome = true :=
      (getMetricByName_isSome c _).mpr ⟨e, he, hname.symm⟩
    obtain ⟨entry, hentry⟩ := Option.isSome_iff_exists.mp hsome
    refine ⟨⟨if entry.FakeTS then now else kv.2.Object.ts, kv.2.Object.m⟩, ?_, rfl⟩
    rw [List.mem_filterMap]
    exact ⟨kv, hkv, by simp [sampleOf, hentry]⟩
  · intro kv _ hno
    have hnone := (getMetricByName_none c (keyMetricName kv.1)).mpr hno
    simp [sampleOf, hnone]
  · rw [filterMap_length_filter]
    congr 1
    apply List.filter_congr
    intro kv _
    exact sampleOf_isSome c now kv
  · intro hnd
    rw [matchingPairs_eq c _ hnd, filterMap_length_filter]
    congr 1
    apply List.filter_congr
    intro kv _
    exact sampleOf_isSome c now kv

/-- C15 (amended) on `exampleStored`, collected one nanosecond after the
observation: the statement there, and the one sample emitted. -/
theorem Collect_samples_witness :
    (∃ samples, Collect exampleStored 1001 = some samples ∧
      samples = (cacheItems exampleStored.cache 1001).filterMap (sampleOf exampleStored 1001) ∧
      (∀ e ∈ exampleStored.metrics, ∀ kv ∈ cacheItems exampleStored.cache 1001,
        keyMetricName kv.1 = e.PrometheusName → ∃ s ∈ samples, s.m = kv.2.Object.m) ∧
      (∀ kv ∈ cacheItems exampleStored.cache 1001,
        (∀ e ∈ exampleStored.metrics, e.PrometheusName ≠ keyMetricName kv.1) →
        sampleOf exampleStored 1001 kv = none) ∧
      samples.length = ((cacheItems exampleStored.cache 1001).filter
        (fun kv => (getMetricByName exampleStored (keyMetricName kv.1)).isSome)).length ∧
      ((exampleStored.metrics.map (fun e => e.PrometheusName)).Nodup →
        samples.length = matchingPairs exampleStored.metrics
          (cacheItems exampleStored.cache 1001))) ∧
    (exampleStored.metrics.map (fun e => e.PrometheusName)).Nodup ∧
    Collect exampleStored 1001
      = some [⟨1000, ⟨("temp".toList, ["topic".toList, "customTopic".toList,
          "customTopic2".toList]), ⟨2512, 2⟩, exampleLabels⟩⟩] :=
  ⟨Collect_samples exampleStored 1001, by decide, rfl⟩

theorem mem_mapSet_self {α : Type} (l : List (Str × α)) (k : Str) (x : α) :
    (k, x) ∈ mapSet l k x := by
  induction l with
  | nil => simp [mapSet]
  | cons e rest ih =>
    obtain ⟨k1, y⟩ := e
    by_cases hk : k1 = k
    · simp [mapSet, hk]
    · simp only [mapSet, hk, if_false]
      exact List.mem_cons_of_mem _ ih

theorem observed_json_calls {F : Type} (L : GoLib F) (metric : Metric) (msg : Message)
    (hf : metric.JSONField ≠ []) :
    ∃ calls, observed L metric msg = some calls ∧
      ∀ call ∈ calls, ∃ field ∈ metric.JSONField,
        call.metric.PrometheusName = metric.PrometheusName ++ '_' :: field := by
  rw [observed_json L metric msg hf]
  have hb := buildLabelValues_eq ⟨{ metric with BaseName := metric.PrometheusName }⟩ msg.topic
  cases hm : L.unmarshal msg.payload with
  | none =>
    refine ⟨[], ?_, fun call hc => by cases hc⟩
    simp [getJSONMessageHandler, hm]
  | some m =>
    rw [getJSONMessageHandler_eq L _ msg m _ hm hb]
    refine ⟨_, rfl, ?_⟩
    intro call hc
    rw [List.mem_filterMap] at hc
    obtain ⟨p, hp, hobs⟩ := hc
    refine ⟨p, hp, ?_⟩
    unfold fieldObservation at hobs
    cases hj : findInJSON m p with
    | none => rw [hj] at hobs; cases hobs
    | some value =>
      rw [hj] at hobs
      dsimp only at hobs
      cases hv : L.parseFloat (L.sprintV value) with
      | none => rw [hv] at hobs; cases hobs
      | some f =>
        rw [hv] at hobs
        injection hobs with hobs
        rw [← hobs]

theorem suffixed_ne (base field : Str) : base ++ '_' :: field ≠ base := by
  intro h
  have := congrArg List.length h
  simp at this

theorem keyMetricName_suffixed_ne (base field topic : Str) :
    keyMetricName (cacheKey (base ++ '_' :: field) topic) ≠ base := by
  by_cases hbar : '|' ∈ base
  · intro e
    have hno := keyMetricName_no_bar (cacheKey (base ++ '_' :: field) topic)
    rw [e] at hno
    exact hno hbar
  · have hall : ∀ ch ∈ base, (fun ch => decide (ch ≠ '|')) ch = true := by
      intro ch hch
      have : ch ≠ '|' := fun h => hbar (h ▸ hch)
      simpa using this
    have e : cacheKey (base ++ '_' :: field) topic
        = base ++ ('_' :: (field ++ '|' :: topic)) := by
      simp [cacheKey]
    unfold keyMetricName
    rw [e, List.takeWhile_append_of_pos hall]
    intro h
    have := congrArg List.length h
    simp [List.takeWhile_cons] at this

theorem observeCall_keeps_unmatched {F D : Type} (P : PromLib D) (base : Str)
    (c : memoryCachedCollector F D) (call : ObserveCall F) (now : Int)
    (hname : ∃ field, call.metric.PrometheusName = base ++ '_' :: field)
    (hinv : ∀ kv ∈ c.cache.items, keyMetricName kv.1 ≠ base) :
    (observeCall P c call now).metrics = c.metrics ∧
    ∀ kv ∈ (observeCall P c call now).cache.items, keyMetricName kv.1 ≠ base := by
  unfold observeCall
  refine ⟨(Observe_descriptions P c _ _ _ _ _ _).2.1, ?_⟩
  by_cases hok : P.constMetricOk call.metric call.labelValues = true
  · intro kv hkv
    rw [Observe_items P c _ _ _ _ _ _ hok] at hkv
    rcases mem_mapSet _ _ _ _ hkv with h | h
    · obtain ⟨field, hfield⟩ := hname
      rw [h, hfield]
      exact keyMetricName_suffixed_ne base field call.topic
    · exact hinv kv h
  · have hno : P.constMetricOk call.metric call.labelValues = false := by
      simpa using hok
    rw [Observe_rejected P c _ _ _ _ _ _ hno]
    exact hinv

theorem observeCalls_keep_unmatched {F D : Type} (P : PromLib D) (base : Str) (now : Int)
    (calls : List (ObserveCall F)) :
    ∀ c : memoryCachedCollector F D,
      (∀ call ∈ calls, ∃ field, call.metric.PrometheusName = base ++ '_' :: field) →
      (∀ kv ∈ c.cache.items, keyMetricName kv.1 ≠ base) →
      (calls.foldl (fun st call => observeCall P st call now) c).metrics = c.metrics ∧
      ∀ kv ∈ (calls.foldl (fun st call => observeCall P st call now) c).cache.items,
        keyMetricName kv.1 ≠ base := by
  induction calls with
  | nil => intro c _ hinv; exact ⟨rfl, hinv⟩
  | cons call calls ih =>
    intro c hnames hinv
    have h1 := observeCall_keeps_unmatched P base c call now
      (hnames call (List.mem_cons_self _ _)) hinv
    have h2 := ih (observeCall P c call now)
      (fun x hx => hnames x (List.mem_cons_of_mem _ hx)) h1.2
    exact ⟨h2.1.trans h1.1, h2.2⟩

theorem handleMessages_keeps_unmatched {F D : Type} (L : GoLib F) (P : PromLib D)
    (metric : Metric) (hf : metric.JSONField ≠ []) (msgs : List (Message × Int)) :
    ∀ c : memoryCachedCollector F D,
      (∀ kv ∈ c.cache.items, keyMetricName kv.1 ≠ metric.PrometheusName) →
      (handleMessages L P metric c msgs).metrics = c.metrics ∧
      ∀ kv ∈ (handleMessages L P metric c msgs).cache.items,
        keyMetricName kv.1 ≠ metric.PrometheusName := by
  induction msgs with
  | nil => intro c hinv; exact ⟨rfl, hinv⟩
  | cons mt msgs ih =>
    intro c hinv
    obtain ⟨calls, hcalls, hnames⟩ := observed_json_calls L metric mt.1 hf
    have hnames2 : ∀ call ∈ (observed L metric mt.1).getD [],
        ∃ field, call.metric.PrometheusName = metric.PrometheusName ++ '_' :: field := by
      rw [hcalls]
      intro call hc
      obtain ⟨field, _, hfield⟩ := hnames call hc
      exact ⟨field, hfield⟩
    have h1 := observeCalls_keep_unmatched P metric.PrometheusName mt.2 _ c hnames2 hinv
    have h2 := ih _ h1.2
    exact ⟨h2.1.trans h1.1, h2.2⟩

/-- C19 (as stated, refuted): for the metric `temp` with the field path `a|b`
the observation is stored under the name `temp_a|b`, but `Collect` looks up the
name `temp_a`: with a Catalog holding exactly the name `temp_a|b` it emits no
sample, and with a Catalog holding `temp_a` it emits one. -/
theorem suffixed_name_with_bar :
    (observed refLib (exampleMetric ["a|b".toList]) ⟨exampleTopic, payloadBar⟩).map
        (fun calls => calls.map (fun call => call.metric.PrometheusName))
      = some ["temp_a|b".toList] ∧
    (handleMessages refLib refProm (exampleMetric ["a|b".toList])
        (NewCollector Dec refProm 3600000000000
          [{ exampleMetric [] with PrometheusName := "temp_a|b".toList }])
        [(⟨exampleTopic, payloadBar⟩, 1000)]).cache.items.length = 1 ∧
    Collect (handleMessages refLib refProm (exampleMetric ["a|b".toList])
        (NewCollector Dec refProm 3600000000000
          [{ exampleMetric [] with PrometheusName := "temp_a|b".toList }])
        [(⟨exampleTopic, payloadBar⟩, 1000)]) 1001 = some [] ∧
    (Collect (handleMessages refLib refProm (exampleMetric ["a|b".toList])
        (NewCollector Dec refProm 3600000000000
          [{ exampleMetric [] with PrometheusName := "temp_a".toList }])
        [(⟨exampleTopic, payloadBar⟩, 1000)]) 1001).map List.length = some 1 :=
  ⟨rfl, rfl, rfl, rfl⟩

/-- C19 (amended): the handler built from a metric `M` with a non-empty field
list makes every call under a name `M.PrometheusName + "_" + field`, which
differs from `M.PrometheusName`.  When such a call is accepted and its name
contains no `|`, the item it stores is among those a later `Collect` iterates
while it is live, and `Collect` emits a sample for it if and only if the
Catalog has an entry with exactly that name.  With the Catalog `[M]` alone,
`Collect` emits no sample after any messages the handler processed. -/
theorem suffixed_names_collect {F D : Type} (L : GoLib F) (P : PromLib D) (M : Metric)
    (msg : Message) (hf : M.JSONField ≠ []) :
    ∃ calls, observed L M msg = some calls ∧
      (∀ call ∈ calls, ∃ field ∈ M.JSONField,
        call.metric.PrometheusName = M.PrometheusName ++ '_' :: field ∧
        call.metric.PrometheusName ≠ M.PrometheusName) ∧
      (∀ call ∈ calls, ∀ (c : memoryCachedCollector F D) (t0 now : Int),
        P.constMetricOk call.metric call.labelValues = true →
        '|' ∉ call.metric.PrometheusName →
        (effectiveExpiration c call.expiration > 0 →
          now ≤ t0 + effectiveExpiration c call.expiration) →
        ∃ item, item.Object = ⟨⟨P.PrometheusDescription call.metric, call.v,
            call.labelValues⟩, t0⟩ ∧
          (cacheKey call.metric.PrometheusName call.topic, item)
            ∈ cacheItems (observeCall P c call t0).cache now ∧
          ((sampleOf (observeCall P c call t0) now
              (cacheKey call.metric.PrometheusName call.topic, item)).isSome = true ↔
            ∃ e ∈ c.metrics, e.PrometheusName = call.metric.PrometheusName)) ∧
      (∀ (e : Int) (msgs : List (Message × Int)) (now : Int),
        Collect (handleMessages L P M (NewCollector F P e [M]) msgs) now = some []) := by
  obtain ⟨calls, hcalls, hnames⟩ := observed_json_calls L M msg hf
  refine ⟨calls, hcalls, ?_, ?_, ?_⟩
  · intro call hc
    obtain ⟨field, hfield, hname⟩ := hnames call hc
    refine ⟨field, hfield, hname, ?_⟩
    rw [hname]
    exact suffixed_ne _ _
  · intro call _ c t0 now hok hbar hlive
    have hmet : (observeCall P c call t0).metrics = c.metrics :=
      (Observe_descriptions P c _ _ _ _ _ _).2.1
    refine ⟨⟨⟨⟨P.PrometheusDescription call.metric, call.v, call.labelValues⟩, t0⟩,
      if effectiveExpiration c call.expiration > 0
      then t0 + effectiveExpiration c call.expiration else 0⟩, rfl, ?_, ?_⟩
    · simp only [cacheItems, List.mem_filter, observeCall]
      refine ⟨?_, ?_⟩
      · rw [Observe_items P c _ _ _ _ _ _ hok]
        exact mem_mapSet_self _ _ _
      · by_cases hp : effectiveExpiration c call.expiration > 0
        · have := hlive hp
          simp only [itemExpired, if_pos hp, Bool.not_eq_true', decide_eq_false_iff_not]
          omega
        · simp [itemExpired, hp]
    · rw [sampleOf_isSome, getMetricByName_isSome, hmet]
      simp only [keyMetricName_cacheKey _ _ hbar]
  · intro e msgs now
    have hinv := handleMessages_keeps_unmatched L P M hf msgs (NewCollector F P e [M])
      (fun kv hkv => by cases hkv)
    rw [Collect_eq]
    congr 1
    rw [List.filterMap_eq_nil_iff]
    intro kv hkv
    have hmem : kv ∈ (handleMessages L P M (NewCollector F P e [M]) msgs).cache.items :=
      List.mem_of_mem_filter hkv
    have hne := hinv.2 kv hmem
    have hnone : getMetricByName (handleMessages L P M (NewCollector F P e [M]) msgs)
        (keyMetricName kv.1) = none := by
      rw [getMetricByName_none, hinv.1]
      intro x hx
      have hx2 : x = M := by simpa [NewCollector] using hx
      rw [hx2]
      exact fun h => hne h.symm
    simp [sampleOf, hnone]

/-- C19 (amended) on the metric `temp` with the field list `size`, `city` and
the payload `{"size":-5,"city":"Tokyo"}`: the statement there, the name of the
call made, and the empty result of `Collect` with the Catalog `[temp]`. -/
theorem suffixed_names_collect_witness :
    (∃ calls, observed refLib (exampleMetric ["size".toList, "city".toList])
        ⟨exampleTopic, payloadSizeCity⟩ = some calls ∧
      (∀ call ∈ calls, ∃ field ∈ (exampleMetric ["size".toList, "city".toList]).JSONField,
        call.metric.PrometheusName
          = (exampleMetric ["size".toList, "city".toList]).PrometheusName ++ '_' :: field ∧
        call.metric.PrometheusName
          ≠ (exampleMetric ["size".toList, "city".toList]).PrometheusName) ∧
      (∀ call ∈ calls, ∀ (c : memoryCachedCollector Dec (Str × List Str)) (t0 now : Int),
        refProm.constMetricOk call.metric call.labelValues = true →
        '|' ∉ call.metric.PrometheusName →
        (effectiveExpiration c call.expiration > 0 →
          now ≤ t0 + effectiveExpiration c call.expiration) →
        ∃ item, item.Object = ⟨⟨refProm.PrometheusDescription call.metric, call.v,
            call.labelValues⟩, t0⟩ ∧
          (cacheKey call.metric.PrometheusName call.topic, item)
            ∈ cacheItems (observeCall refProm c call t0).cache now ∧
          ((sampleOf (observeCall refProm c call t0) now
              (cacheKey call.metric.PrometheusName call.topic, item)).isSome = true ↔
            ∃ e ∈ c.metrics, e.PrometheusName = call.metric.PrometheusName)) ∧
      (∀ (e : Int) (msgs : List (Message × Int)) (now : Int),
        Collect (handleMessages refLib refProm (exampleMetric ["size".toList, "city".toList])
          (NewCollector Dec refProm e [exampleMetric ["size".toList, "city".toList]]) msgs)
          now = some [])) ∧
    (observed refLib (exampleMetric ["size".toList, "city".toList])
        ⟨exampleTopic, payloadSizeCity⟩).map
        (fun calls => calls.map (fun call => call.metric.PrometheusName))
      = some ["temp_size".toList] ∧
    (handleMessages refLib refProm (exampleMetric ["size".toList, "city".toList])
        (NewCollector Dec refProm 3600000000000 [exampleMetric ["size".toList, "city".toList]])
        [(⟨exampleTopic, payloadSizeCity⟩, 1000)]).cache.items.length = 1 ∧
    (Collect (handleMessages refLib refProm (exampleMetric ["size".toList, "city".toList])
        (NewCollector Dec refProm 3600000000000
          [{ exampleMetric [] with PrometheusName := "temp_size".toList }])
        [(⟨exampleTopic, payloadSizeCity⟩, 1000)]) 1001).map List.length = some 1 :=
  ⟨suffixed_names_collect refLib refProm (exampleMetric ["size".toList, "city".toList])
      ⟨exampleTopic, payloadSizeCity⟩ (by decide),
   rfl, rfl, rfl⟩

/-! ## Leaves that do not convert to a float -/

theorem fieldObservation_none_of_leaf {F : Type} (L : GoLib F) (m : JSONMap F) (field : Str)
    (hleaf : (∃ o, findInJSON m field = some (.obj o)) ∨
      (∃ t, findInJSON m field = some (.str t) ∧ L.parseFloat t = none))
    (hobj : ∀ o, L.parseFloat (L.sprintV (.obj o)) = none)
    (hstr : ∀ t, L.sprintV (.str t) = t) :
    ∃ leaf, findInJSON m field = some leaf ∧ L.parseFloat (L.sprintV leaf) = none := by
  rcases hleaf with ⟨o, ho⟩ | ⟨t, ht, hnum⟩
  · exact ⟨.obj o, ho, hobj o⟩
  · refine ⟨.str t, ht, ?_⟩
    rw [hstr t]
    exact hnum

/-- C11: when the leaf a field path resolves to is an object, or a string that
does not parse as a number, the loop iteration for that field makes no
`Observe` call, no call of the handler is made under the field's name, and the
handler of a metric with that single field makes no call at all.  Of the
standard library it is used that the text of a map is not a number and that
the text of a string is the string. -/
theorem no_call_for_unconvertible_leaf {F : Type} (L : GoLib F) (h : messageHandler)
    (msg : Message) (m : JSONMap F) (field : Str)
    (hm : L.unmarshal msg.payload = some m)
    (hleaf : (∃ o, findInJSON m field = some (.obj o)) ∨
      (∃ t, findInJSON m field = some (.str t) ∧ L.parseFloat t = none))
    (hobj : ∀ o, L.parseFloat (L.sprintV (.obj o)) = none)
    (hstr : ∀ t, L.sprintV (.str t) = t) :
    (∀ topic labelValues st, fieldStep L m topic labelValues st field = st) ∧
    (∃ calls, getJSONMessageHandler L h msg = some (h, calls) ∧
      ∀ call ∈ calls, call.metric.PrometheusName ≠ h.metric.BaseName ++ '_' :: field) ∧
    (h.metric.JSONField = [field] → getJSONMessageHandler L h msg = some (h, [])) := by
  obtain ⟨leaf, hfind, hconv⟩ := fieldObservation_none_of_leaf L m field hleaf hobj hstr
  have hnone : ∀ metric topic labelValues,
      fieldObservation L metric m topic labelValues field = none := by
    intro metric topic labelValues
    simp [fieldObservation, hfind, hconv]
  have heq := getJSONMessageHandler_eq L h msg m _ hm (buildLabelValues_eq h msg.topic)
  refine ⟨?_, ⟨_, heq, ?_⟩, ?_⟩
  · intro topic labelValues st
    simp [fieldStep, hfind, hconv]
  · intro call hc hname
    rw [List.mem_filterMap] at hc
    obtain ⟨p, _, hobs⟩ := hc
    have hp : p = field := by
      unfold fieldObservation at hobs
      cases hj : findInJSON m p with
      | none => rw [hj] at hobs; cases hobs
      | some value =>
        rw [hj] at hobs
        dsimp only at hobs
        cases hv : L.parseFloat (L.sprintV value) with
        | none => rw [hv] at hobs; cases hobs
        | some f =>
          rw [hv] at hobs
          injection hobs with hobs
          rw [← hobs] at hname
          have h2 : '_' :: p = '_' :: field := List.append_cancel_left hname
          exact List.tail_eq_of_cons_eq h2
    rw [hp, hnone] at hobs
    cases hobs
  · intro hfields
    rw [heq, hfields]
    simp [hnone]

/-- C11 on the handler test's payload with the field path `temperatures`
(an object) and with the field path `city` (the string `Tokyo`): no
observation in either case. -/
theorem no_call_for_unconvertible_leaf_witness :
    refUnmarshal payloadTest = some mapTest ∧
    getJSONMessageHandler refLib ⟨exampleMetric ["temperatures".toList]⟩
      ⟨exampleTopic, payloadTest⟩ = some (⟨exampleMetric ["temperatures".toList]⟩, []) ∧
    getJSONMessageHandler refLib ⟨exampleMetric ["city".toList]⟩
      ⟨exampleTopic, payloadTest⟩ = some (⟨exampleMetric ["city".toList]⟩, []) :=
  ⟨rfl,
   (no_call_for_unconvertible_leaf refLib ⟨exampleMetric ["temperatures".toList]⟩
      ⟨exampleTopic, payloadTest⟩ mapTest "temperatures".toList rfl
      (Or.inl ⟨_, rfl⟩) (fun _ => rfl) (fun _ => rfl)).2.2 rfl,
   (no_call_for_unconvertible_leaf refLib ⟨exampleMetric ["city".toList]⟩
      ⟨exampleTopic, payloadTest⟩ mapTest "city".toList rfl
      (Or.inr ⟨"Tokyo".toList, rfl, rfl⟩) (fun _ => rfl) (fun _ => rfl)).2.2 rfl⟩

end MqttExporter
